import Mathlib

/-!
# Fair-Draw: a verification development of `src/JavaScript/FairDraw.js`

The JavaScript functions `nextRandomInt64`, `bit64Power`, `getPrimes`,
`getSeedFromArray`, `getArrayFromString` and `getRandomRanks` are embedded as
Lean functions of the same names.

Conventions of the embedding.

* A `bigint` is an `Int`; once masked with `BIT64` it is non-negative and kept as a `Nat`.
* A `number` argument that holds an integer (`total`, the entries of `nth`, `number` of
  `getPrimes`) is an `Int`; `Math.floor` is the identity on it.
* The counter `times` of `getRandomRanks` runs up to an entry of `nth`, which the caller
  chooses: it is kept as a double, and `++times` is the double nearest to `times + 1`, which is
  `times` itself once `times` has reached `2^53`.
* A string is a `String`, that is, the list of its code points; `for (let char of text)`
  visits them in order and `char.codePointAt(0)` is `Char.toNat`.
* A thrown `TypeError` / `RangeError` is an `Outcome`; the `typeof` guards of the source hold by
  typing and are not repeated.
* `while (primes.length < number)` of `getPrimes` has no bound that is visible in the code: it
  takes a `fuel` (the number of times its condition may be tested) and running out of it is the
  outcome `outOfFuel`. The theorems state how much fuel is enough.
* `Math.round(number * Math.log(number) * 1.5)` is floating point: the function computing it is
  the parameter `est` of `getPrimes` and of its callers. Its value is 0 at 1 and at least 2 from
  2 on; the theorems only assume that it is at least 1 where `getPrimes` is called.
* `Number(b)` of a non-negative `bigint` is the nearest double, ties to even (`toNumber`).
-/

namespace FairDraw

/-! ## Outcomes and values -/

/-- Result of a call: a returned value, a thrown `TypeError`, a thrown `RangeError`, or a loop
that was still running when the fuel ran out. -/
inductive Outcome (α : Type) where
  | ok (value : α)
  | typeError
  | rangeError
  | outOfFuel
deriving DecidableEq, Repr

/-- Sequencing of two computations: an exception of the first one propagates. -/
def Outcome.bind {α β : Type} (o : Outcome α) (f : α → Outcome β) : Outcome β :=
  match o with
  | .ok value => f value
  | .typeError => .typeError
  | .rangeError => .rangeError
  | .outOfFuel => .outOfFuel

/-- The values an element of the array `need` of `getRandomRanks` can hold: nothing
(`undefined`), the marker `true`, or a rank. -/
inductive JsValue where
  | undefined
  | jsTrue
  | number (n : Nat)
deriving DecidableEq, Repr

/-- Truthiness, as tested by `if (need[times])`. -/
def JsValue.truthy : JsValue → Bool
  | .undefined => false
  | .jsTrue => true
  | .number n => n != 0

/-- The constant `BIT64 = (1n << 64n) - 1n`. -/
def BIT64 : Nat := (1 <<< 64) - 1

/-- The statement `x &= BIT64` on a `bigint` (two's complement on negative values). -/
def mask64 (x : Int) : Nat := (Int.land x (BIT64 : Int)).toNat

/-- The number of low bits of `b` that do not fit a 53-bit significand, found by halving `b`
until it is below `2^53`; the first argument bounds the number of halvings. -/
def excessBits : Nat → Nat → Nat
  | 0, _ => 0
  | steps + 1, b => if b < 2 ^ 53 then 0 else excessBits steps (b / 2) + 1

/-- The conversion `Number(b)` of a non-negative `bigint`: the integer value of the nearest
double, ties to even. With `e` the number of low bits that do not fit the 53-bit significand,
`b = q * 2^e + r`, and the result is `q * 2^e` or `(q + 1) * 2^e`. -/
def toNumber (b : Nat) : Nat :=
  let e := excessBits b b
  let q := b >>> e
  let r := b % 2 ^ e
  if 2 * r < 2 ^ e then q <<< e
  else if 2 ^ e < 2 * r then (q + 1) <<< e
  else (q + q % 2) <<< e

/-! ## `nextRandomInt64` (lines 34-42) -/

/-- One round of the generator. -/
def nextRandomInt64 (seed : Int) : Nat :=
  let seed := mask64 seed
  let seed := seed ^^^ ((seed <<< 32) &&& BIT64)
  let seed := seed ^^^ ((seed >>> 13) &&& BIT64)
  let seed := seed ^^^ ((seed <<< 1) &&& BIT64)
  seed

/-! ## `bit64Power` (lines 50-63) -/

/-- The loop `while (k) { ... k >>= 1n }`. The first argument bounds the number of iterations;
`none` is returned when it is used up while `k` is still non-zero. -/
def bit64PowerLoop : Nat → Nat → Nat → Nat → Option Nat
  | 0, _, k, result => if k ≠ 0 then none else some result
  | steps + 1, x, k, result =>
    if k ≠ 0 then
      bit64PowerLoop steps ((x * x) &&& BIT64) (k >>> 1)
        (if k &&& 1 ≠ 0 then (result * x) &&& BIT64 else result)
    else some result

/-- The function `bit64Power(x, k)`. The loop is given `k` iterations, which it never uses up
(`bit64PowerLoop_eq`). -/
def bit64Power (x k : Int) : Outcome Nat :=
  if k < 0 then .rangeError
  else
    match bit64PowerLoop k.toNat (mask64 x) k.toNat 1 with
    | some result => .ok result
    | none => .outOfFuel

/-! ## `getPrimes` (lines 70-103) -/

/-- The assignment `notPrime[i] = true`. -/
def setTrue (notPrime : Nat → Bool) (i : Nat) : Nat → Bool :=
  fun j => if j = i then true else notPrime j

/-- The inner loop `for (let prime of primes)` of the sieve (lines 84-88). -/
def markLoop (x max : Nat) : List Nat → (Nat → Bool) → (Nat → Bool)
  | [], notPrime => notPrime
  | prime :: rest, notPrime =>
    if x * prime > max then notPrime
    else
      let notPrime := setTrue notPrime (x * prime)
      if x % prime = 0 then notPrime
      else markLoop x max rest notPrime

/-- The loop `for (let x = 2; x <= max; ++x)` (lines 78-89); the first argument is the number
of values of `x` still to visit. `Sum.inl primes` is the `return primes` of line 81,
`Sum.inr primes` is the state on leaving the loop at `x > max`. -/
def sieveLoop (number max : Nat) : Nat → Nat → List Nat → (Nat → Bool) → List Nat ⊕ List Nat
  | 0, _, primes, _ => .inr primes
  | steps + 1, x, primes, notPrime =>
    if !notPrime x then
      let primes := primes ++ [x]
      if primes.length = number then .inl primes
      else sieveLoop number max steps (x + 1) primes (markLoop x max primes notPrime)
    else sieveLoop number max steps (x + 1) primes (markLoop x max primes notPrime)

/-- The loop `for (let prime of primes)` of the trial division (lines 92-99); the result is the
final value of `isPrime`. -/
def trialLoop (max : Nat) : List Nat → Bool
  | [] => true
  | prime :: rest =>
    if prime * prime > max then true
    else if max % prime = 0 then false
    else trialLoop max rest

/-- The loop `while (primes.length < number)` (lines 90-101). -/
def fallbackLoop (number : Nat) : Nat → List Nat → Nat → Option (List Nat)
  | 0, _, _ => none
  | fuel + 1, primes, max =>
    if primes.length < number then
      let max := max + 1
      fallbackLoop number fuel (if trialLoop max primes then primes ++ [max] else primes) max
    else some primes

/-- Lines 76-102 of `getPrimes`, for a positive `number` and the value `max` of the estimate. -/
def getPrimesFrom (fuel max number : Nat) : Option (List Nat) :=
  match sieveLoop number max (max - 1) 2 [] (fun i => decide (i < 2)) with
  | .inl primes => some primes
  | .inr primes => fallbackLoop number fuel primes max

/-- The function `getPrimes(number)`; `est number` is
`Math.round(number * Math.log(number) * 1.5)`. -/
def getPrimes (fuel : Nat) (est : Nat → Nat) (number : Int) : Outcome (List Nat) :=
  if number ≤ 0 then .ok []
  else
    match getPrimesFrom fuel (est number.toNat) number.toNat with
    | some primes => .ok primes
    | none => .outOfFuel

/-- The values of `Math.round(number * Math.log(number) * 1.5)` for `number` from 1 to 8
(`Math.log(1)` is `+0`, so the first one is 0); other arguments are not tabulated. It stands for
the parameter `est` where a function is evaluated on a concrete input. -/
def estimateSmall : Nat → Nat
  | 1 => 0
  | 2 => 2
  | 3 => 5
  | 4 => 8
  | 5 => 12
  | 6 => 16
  | 7 => 20
  | 8 => 25
  | _ => 0

/-! ## `getSeedFromArray` (lines 110-127) -/

/-- The `reduce` of lines 124-126, from position `index` with accumulator `result`. A lookup
`primes[index]` outside the array gives `undefined`, on which `bit64Power` throws a
`TypeError`. -/
def seedReduce (primes : List Nat) : List Int → Nat → Nat → Outcome Nat
  | [], _, result => .ok result
  | value :: rest, index, result =>
    match primes[index]? with
    | none => .typeError
    | some prime =>
      (bit64Power prime value).bind fun power =>
        seedReduce primes rest (index + 1) ((result * power) &&& BIT64)

/-- The function `getSeedFromArray(array)`. -/
def getSeedFromArray (fuel : Nat) (est : Nat → Nat) (array : List Int) : Outcome Nat :=
  if array.length < 1 then .rangeError
  else if array.any (fun value => decide (value < 0)) then .rangeError
  else
    (getPrimes fuel est (array.length + 1)).bind fun primes =>
      seedReduce (primes.drop 1) array 0 1

/-! ## `getArrayFromString` (lines 134-145) -/

/-- The characters removed by `String.prototype.trim`: the ECMAScript `WhiteSpace` and
`LineTerminator` code points. -/
def isWhiteSpace (c : Char) : Bool :=
  let n := c.toNat
  n = 0x09 || n = 0x0A || n = 0x0B || n = 0x0C || n = 0x0D || n = 0x20 || n = 0xA0
    || n = 0x1680 || (0x2000 ≤ n && n ≤ 0x200A) || n = 0x2028 || n = 0x2029 || n = 0x202F
    || n = 0x205F || n = 0x3000 || n = 0xFEFF

/-- The method `text.trim()`, on the list of characters of the text. -/
def jsTrim (chars : List Char) : List Char :=
  ((chars.dropWhile isWhiteSpace).reverse.dropWhile isWhiteSpace).reverse

/-- The function `getArrayFromString(text)`. -/
def getArrayFromString (text : String) : Outcome (List Int) :=
  let array := (jsTrim text.data).map (fun char => (char.toNat : Int))
  if array.length < 1 then .rangeError else .ok array

/-! ## `getRandomRanks` (lines 174-197) -/

/-- The assignment `need[i] = v` on the sparse array `need`. -/
def setNeed (need : Int → JsValue) (i : Int) (v : JsValue) : Int → JsValue :=
  fun j => if j = i then v else need j

/-- One iteration of `for (let value of nth)` (lines 186-190) on the pair `(need, maxNth)`. -/
def needStep (state : (Int → JsValue) × Int) (value : Int) : (Int → JsValue) × Int :=
  let value := if value < 0 then 0 else value
  (setNeed state.1 value .jsTrue, if value > state.2 then value else state.2)

/-- The rank `Number(seed % BigInt(total) + 1n)`. -/
def rankOf (seed : Nat) (total : Int) : Nat :=
  toNumber ((seed : Int) % total + 1).toNat

/-- The body of `for (let times = 1; times <= maxNth; ++times)` (lines 193-194) on the pair
`(seed, need)`. -/
def rankStep (total : Int) (state : Nat × (Int → JsValue)) (times : Nat) :
    Nat × (Int → JsValue) :=
  let seed := nextRandomInt64 state.1
  (seed, if (state.2 times).truthy then setNeed state.2 times (.number (rankOf seed total))
    else state.2)

/-- The loop `for (let times = 1; times <= maxNth; ++times)` (lines 192-195) on the pair
`(seed, need)`, from the value `times` of the counter. The counter is a `number`: `++times` is
the double nearest to `times + 1`. The first argument bounds the number of times the condition
is tested; `none` is returned when it is used up while the loop is still running. -/
def rankLoop (total maxNth : Int) :
    Nat → Nat → Nat × (Int → JsValue) → Option (Nat × (Int → JsValue))
  | 0, _, _ => none
  | steps + 1, times, state =>
    if (times : Int) ≤ maxNth then
      rankLoop total maxNth steps (toNumber (times + 1)) (rankStep total state times)
    else some state

/-- Lines 185-196 of `getRandomRanks`, from the seed; `none` when the loop of lines 192-195 does
not end. That loop is given `maxNth + 1` tests of its condition: as many as it makes when
`maxNth < 2^53` (`rankLoop_exact`), while for `maxNth ≥ 2^53` no number of tests lets it end
(`rankLoop_diverges`). -/
def ranksFromSeed (seed : Nat) (total : Int) (nth : List Int) : Option (List JsValue) :=
  let start := nth.foldl needStep (fun _ => JsValue.undefined, 0)
  let need := start.1
  let maxNth := start.2
  let need := if (need 0).truthy then setNeed need 0 (.number (rankOf seed total)) else need
  match rankLoop total maxNth (maxNth.toNat + 1) 1 (seed, need) with
  | some final => some (nth.map fun value => final.2 value)
  | none => none

/-- The function `getRandomRanks(text, params, total, nth)`. -/
def getRandomRanks (fuel : Nat) (est : Nat → Nat) (text : String) (params : List Int)
    (total : Int) (nth : List Int) : Outcome (List JsValue) :=
  if (jsTrim text.data).length < 1 then .rangeError
  else if total < 1 then .rangeError
  else
    (getArrayFromString text).bind fun codes =>
      (getSeedFromArray fuel est (params ++ codes)).bind fun seed =>
        match ranksFromSeed seed total nth with
        | some ranks => .ok ranks
        | none => .outOfFuel

/-! ## Notions used in the statements -/

/-- Written from the specification (section 4.5): one xorshift round
`s ^= (s << 32); s ^= (s >> 13); s ^= (s << 1)` on a native unsigned 64-bit word. -/
def xorshiftWord (s : BitVec 64) : BitVec 64 :=
  let s := s ^^^ (s <<< 32)
  let s := s ^^^ (s >>> 13)
  s ^^^ (s <<< 1)

/-- The seed after `k` applications of `nextRandomInt64`. -/
def seedAfter (k : Nat) (seed : Nat) : Nat :=
  (fun s : Nat => nextRandomInt64 (s : Int))^[k] seed

/-- The code points of the trimmed text, `codePoints(trim(text))`. -/
def textCodes (text : String) : List Int :=
  (jsTrim text.data).map fun char => (char.toNat : Int)

/-- The primes below `k`, in ascending order. -/
def primesBelow (k : Nat) : List Nat :=
  (List.range k).filter fun n => decide (Nat.Prime n)

/-- The state of the array `notPrime` when the sieve is about to visit `x`: only composite
numbers (and 0, 1) are marked, and every composite `m ≤ max` whose cofactor `m / minFac m` has
already been visited is marked. -/
def Marked (max x : Nat) (notPrime : Nat → Bool) : Prop :=
  (∀ m, notPrime m = true → ¬ Nat.Prime m) ∧
    ∀ m, 2 ≤ m → m ≤ max → ¬ Nat.Prime m → m / m.minFac < x → notPrime m = true

/-! ## Masking -/

theorem BIT64_eq : BIT64 = 2 ^ 64 - 1 := by decide

theorem land_BIT64 (n : Nat) : n &&& BIT64 = n % 2 ^ 64 := by
  rw [BIT64_eq]; exact Nat.and_pow_two_sub_one_eq_mod n 64

theorem ldiff_BIT64 (n : Nat) : Nat.ldiff (2 ^ 64 - 1) n = 2 ^ 64 - (n % 2 ^ 64 + 1) := by
  apply Nat.eq_of_testBit_eq
  intro i
  have h : n % 2 ^ 64 < 2 ^ 64 := Nat.mod_lt _ (by norm_num)
  rw [Nat.testBit_ldiff, Nat.testBit_two_pow_sub_one, Nat.testBit_two_pow_sub_succ h,
    Nat.testBit_mod_two_pow]
  by_cases hi : i < 64 <;> simp [hi]

theorem mask64_eq (x : Int) : mask64 x = (x % 2 ^ 64).toNat := by
  unfold mask64
  rw [BIT64_eq]
  cases x with
  | ofNat n =>
    have h1 : Int.land (Int.ofNat n) ((2 ^ 64 - 1 : Nat) : Int)
        = ((n &&& (2 ^ 64 - 1) : Nat) : Int) := rfl
    rw [h1, Nat.and_pow_two_sub_one_eq_mod]
    simp
  | negSucc n =>
    have h1 : Int.land (Int.negSucc n) ((2 ^ 64 - 1 : Nat) : Int)
        = ((Nat.ldiff (2 ^ 64 - 1) n : Nat) : Int) := rfl
    rw [h1, ldiff_BIT64]
    have h : n % 2 ^ 64 < 2 ^ 64 := Nat.mod_lt _ (by norm_num)
    rw [Int.negSucc_eq]
    omega

theorem mask64_lt (x : Int) : mask64 x < 2 ^ 64 := by
  rw [mask64_eq]; omega

theorem mask64_natCast (n : Nat) : mask64 (n : Int) = n % 2 ^ 64 := by
  rw [mask64_eq]; omega

/-! ## The generator round -/

theorem nextRandomInt64_unfold (seed : Int) :
    nextRandomInt64 seed =
      ((mask64 seed ^^^ ((mask64 seed <<< 32) % 2 ^ 64))
          ^^^ ((mask64 seed ^^^ ((mask64 seed <<< 32) % 2 ^ 64)) >>> 13))
        ^^^ ((((mask64 seed ^^^ ((mask64 seed <<< 32) % 2 ^ 64))
          ^^^ ((mask64 seed ^^^ ((mask64 seed <<< 32) % 2 ^ 64)) >>> 13)) <<< 1) % 2 ^ 64) := by
  have h0 := mask64_lt seed
  have h1 : mask64 seed ^^^ ((mask64 seed <<< 32) % 2 ^ 64) < 2 ^ 64 :=
    Nat.xor_lt_two_pow h0 (Nat.mod_lt _ (by norm_num))
  have h2 : (mask64 seed ^^^ ((mask64 seed <<< 32) % 2 ^ 64)) >>> 13 < 2 ^ 64 := by
    rw [Nat.shiftRight_eq_div_pow]
    exact lt_of_le_of_lt (Nat.div_le_self _ _) h1
  simp only [nextRandomInt64, land_BIT64]
  rw [Nat.mod_eq_of_lt h2]

theorem nextRandomInt64_lt (seed : Int) : nextRandomInt64 seed < 2 ^ 64 := by
  rw [nextRandomInt64_unfold]
  have h0 := mask64_lt seed
  have h1 : mask64 seed ^^^ ((mask64 seed <<< 32) % 2 ^ 64) < 2 ^ 64 :=
    Nat.xor_lt_two_pow h0 (Nat.mod_lt _ (by norm_num))
  have h2 : (mask64 seed ^^^ ((mask64 seed <<< 32) % 2 ^ 64)) >>> 13 < 2 ^ 64 := by
    rw [Nat.shiftRight_eq_div_pow]
    exact lt_of_le_of_lt (Nat.div_le_self _ _) h1
  exact Nat.xor_lt_two_pow (Nat.xor_lt_two_pow h1 h2) (Nat.mod_lt _ (by norm_num))

theorem nextRandomInt64_word (seed : Int) :
    nextRandomInt64 seed = (xorshiftWord (BitVec.ofInt 64 seed)).toNat := by
  have h : (BitVec.ofInt 64 seed).toNat = mask64 seed := by
    rw [mask64_eq, BitVec.toNat_ofInt]; norm_num
  rw [nextRandomInt64_unfold]
  simp only [xorshiftWord, BitVec.toNat_xor, BitVec.toNat_shiftLeft, BitVec.toNat_ushiftRight, h]

/-! ## Binary exponentiation -/

theorem bit64PowerLoop_eq (steps : Nat) : ∀ (x k result : Nat), k ≤ steps → result < 2 ^ 64 →
    bit64PowerLoop steps x k result = some (result * x ^ k % 2 ^ 64) := by
  induction steps with
  | zero =>
    intro x k result hk hr
    have hk0 : k = 0 := by omega
    subst hk0
    simp only [bit64PowerLoop, pow_zero, mul_one, Nat.mod_eq_of_lt hr]
    simp
  | succ steps ih =>
    intro x k result hk hr
    by_cases hk0 : k = 0
    · subst hk0
      simp only [bit64PowerLoop, pow_zero, mul_one, Nat.mod_eq_of_lt hr]
      simp
    · have hhalf : k >>> 1 ≤ steps := by
        rw [Nat.shiftRight_eq_div_pow]; omega
      have hdecomp : x ^ k = (x * x) ^ (k / 2) * x ^ (k % 2) := by
        rw [← pow_two, ← pow_mul, ← pow_add, Nat.div_add_mod]
      have hsq : Nat.ModEq (2 ^ 64) ((x * x % 2 ^ 64) ^ (k / 2)) ((x * x) ^ (k / 2)) :=
        (Nat.mod_modEq _ _).pow _
      simp only [bit64PowerLoop, hk0, ne_eq, not_false_eq_true, if_true, land_BIT64,
        Nat.and_one_is_mod]
      have hshift : k >>> 1 = k / 2 := by rw [Nat.shiftRight_eq_div_pow, pow_one]
      rcases Nat.mod_two_eq_zero_or_one k with hpar | hpar
      · rw [hpar] at hdecomp
        simp only [hpar, not_true_eq_false, if_false]
        rw [ih _ _ _ hhalf hr, hshift, hdecomp, pow_zero, mul_one]
        exact congrArg some (Nat.ModEq.mul_left _ hsq)
      · rw [hpar] at hdecomp
        simp only [hpar, one_ne_zero, not_false_eq_true, if_true]
        rw [ih _ _ _ hhalf (Nat.mod_lt _ (by norm_num)), hshift, hdecomp, pow_one]
        apply congrArg some
        have h1 : Nat.ModEq (2 ^ 64) (result * x % 2 ^ 64) (result * x) := Nat.mod_modEq _ _
        have h2 := Nat.ModEq.mul h1 hsq
        calc result * x % 2 ^ 64 * (x * x % 2 ^ 64) ^ (k / 2) % 2 ^ 64
            = result * x * (x * x) ^ (k / 2) % 2 ^ 64 := h2
          _ = result * ((x * x) ^ (k / 2) * x) % 2 ^ 64 := by ring_nf

theorem bit64Power_eq (x k : Int) :
    bit64Power x k = if k < 0 then .rangeError else .ok (x ^ k.toNat % 2 ^ 64).toNat := by
  unfold bit64Power
  split
  · rfl
  · rw [bit64PowerLoop_eq _ _ _ _ (le_refl _) (by norm_num), one_mul, mask64_eq]
    simp only
    congr 1
    have hx : 0 ≤ x % 2 ^ 64 := Int.emod_nonneg _ (by norm_num)
    have h1 : (((x % 2 ^ 64).toNat ^ k.toNat % 2 ^ 64 : Nat) : Int)
        = (x ^ k.toNat % 2 ^ 64) := by
      have h3 : (((x % 2 ^ 64).toNat : Nat) : Int) = x % 2 ^ 64 := Int.toNat_of_nonneg hx
      rw [Int.natCast_mod, Nat.cast_pow, h3]
      exact (Int.ModEq.pow _ (Int.mod_modEq x (2 ^ 64)))
    have h2 : 0 ≤ x ^ k.toNat % 2 ^ 64 := Int.emod_nonneg _ (by norm_num)
    omega

/-! ## The primes below a bound -/

theorem primesBelow_succ (k : Nat) :
    primesBelow (k + 1) = if Nat.Prime k then primesBelow k ++ [k] else primesBelow k := by
  unfold primesBelow
  rw [List.range_succ, List.filter_append]
  by_cases h : Nat.Prime k <;> simp [h]

theorem mem_primesBelow {k p : Nat} : p ∈ primesBelow k ↔ p < k ∧ Nat.Prime p := by
  simp [primesBelow]

theorem primesBelow_sorted (k : Nat) : (primesBelow k).Pairwise (· < ·) :=
  List.Pairwise.filter _ (List.pairwise_lt_range k)

theorem primesBelow_two : primesBelow 2 = [] := by
  have h0 : primesBelow 0 = [] := rfl
  rw [primesBelow_succ, primesBelow_succ, h0]
  simp [Nat.not_prime_zero, Nat.not_prime_one]

theorem primesBelow_eq_map_nth (k : Nat) :
    primesBelow k = (List.range (Nat.count Nat.Prime k)).map (Nat.nth Nat.Prime) := by
  induction k with
  | zero => simp [primesBelow]
  | succ k ih =>
    rw [primesBelow_succ, Nat.count_succ]
    by_cases h : Nat.Prime k
    · simp only [h, if_true]
      rw [List.range_succ, List.map_append, ← ih, List.map_singleton, Nat.nth_count h]
    · simp only [h, if_false, add_zero]
      exact ih

theorem length_primesBelow (k : Nat) : (primesBelow k).length = Nat.count Nat.Prime k := by
  rw [primesBelow_eq_map_nth]; simp

theorem primesBelow_of_length {k number : Nat} (h : (primesBelow k).length = number) :
    primesBelow k = (List.range number).map (Nat.nth Nat.Prime) := by
  rw [primesBelow_eq_map_nth, ← length_primesBelow, h]

/-! ## The marking loop of the sieve -/

theorem markLoop_mono (x max : Nat) (ps : List Nat) : ∀ (np : Nat → Bool) (m : Nat),
    np m = true → markLoop x max ps np m = true := by
  induction ps with
  | nil => intro np m h; exact h
  | cons q rest ih =>
    intro np m h
    simp only [markLoop]
    have hset : setTrue np (x * q) m = true := by
      unfold setTrue; split <;> simp [h]
    split
    · exact h
    · split
      · exact hset
      · exact ih _ _ hset

theorem markLoop_sound (x max : Nat) (ps : List Nat) : ∀ (np : Nat → Bool) (m : Nat),
    markLoop x max ps np m = true → np m = true ∨ ∃ p ∈ ps, m = x * p := by
  induction ps with
  | nil => intro np m h; exact Or.inl h
  | cons q rest ih =>
    intro np m h
    simp only [markLoop] at h
    have hset : ∀ m, setTrue np (x * q) m = true → np m = true ∨ ∃ p ∈ q :: rest, m = x * p := by
      intro m hm
      unfold setTrue at hm
      split at hm
      · rename_i heq; exact Or.inr ⟨q, List.mem_cons_self _ _, heq⟩
      · exact Or.inl hm
    split at h
    · exact Or.inl h
    · split at h
      · exact hset m h
      · rcases ih _ _ h with h1 | ⟨p, hp, hm⟩
        · exact hset m h1
        · exact Or.inr ⟨p, List.mem_cons_of_mem _ hp, hm⟩

theorem markLoop_complete (x max : Nat) (ps : List Nat) :
    ∀ (np : Nat → Bool) (p : Nat), ps.Pairwise (· < ·) → p ∈ ps → x * p ≤ max →
      (∀ q ∈ ps, q < p → ¬ q ∣ x) → markLoop x max ps np (x * p) = true := by
  induction ps with
  | nil => intro np p _ hp; simp at hp
  | cons q rest ih =>
    intro np p hsorted hp hle hdiv
    rw [List.pairwise_cons] at hsorted
    simp only [markLoop]
    rcases List.mem_cons.1 hp with rfl | hrest
    · rw [if_neg (by omega)]
      have hset : setTrue np (x * p) (x * p) = true := by simp [setTrue]
      split
      · exact hset
      · exact markLoop_mono _ _ _ _ _ hset
    · have hqp : q < p := hsorted.1 p hrest
      have hxq : x * q ≤ max := le_trans (Nat.mul_le_mul_left x hqp.le) hle
      rw [if_neg (by omega)]
      have hnd : ¬ x % q = 0 := fun h0 =>
        hdiv q (List.mem_cons_self _ _) hqp (Nat.dvd_of_mod_eq_zero h0)
      rw [if_neg hnd]
      exact ih _ _ hsorted.2 hrest hle (fun r hr hrp => hdiv r (List.mem_cons_of_mem _ hr) hrp)

theorem Marked_init (max : Nat) : Marked max 2 (fun i => decide (i < 2)) := by
  constructor
  · intro m hm hp
    have := hp.two_le
    simp at hm
    omega
  · intro m hm _ hnp hlt
    exfalso
    have hpos : 0 < m := by omega
    have hsq := Nat.minFac_sq_le_self hpos hnp
    have hf2 : 2 ≤ m.minFac := (Nat.minFac_prime (by omega)).two_le
    have hge : m.minFac ≤ m / m.minFac := by
      rw [Nat.le_div_iff_mul_le (by omega)]
      rw [pow_two] at hsq
      exact hsq
    omega

theorem Marked_prime_iff {max x : Nat} {np : Nat → Bool} (h : Marked max x np) (hx2 : 2 ≤ x)
    (hxm : x ≤ max) : np x = false ↔ Nat.Prime x := by
  constructor
  · intro hfalse
    by_contra hnp
    have hlt : x / x.minFac < x :=
      Nat.div_lt_self (by omega) (Nat.minFac_prime (by omega)).one_lt
    have := h.2 x hx2 hxm hnp hlt
    simp [hfalse] at this
  · intro hp
    by_contra hne
    have htrue : np x = true := by simpa using hne
    exact h.1 x htrue hp

theorem Marked_step {max x : Nat} {np : Nat → Bool} (h : Marked max x np) (hx2 : 2 ≤ x) :
    Marked max (x + 1) (markLoop x max (primesBelow (x + 1)) np) := by
  constructor
  · intro m hm
    rcases markLoop_sound _ _ _ _ _ hm with h1 | ⟨p, hp, rfl⟩
    · exact h.1 m h1
    · have hpp := (mem_primesBelow.1 hp).2
      exact Nat.not_prime_mul (by omega) (by have := hpp.two_le; omega)
  · intro m hm2 hmax hnp hlt
    rcases Nat.lt_succ_iff_lt_or_eq.1 hlt with hlt' | heq
    · exact markLoop_mono _ _ _ _ _ (h.2 m hm2 hmax hnp hlt')
    · have hfp : Nat.Prime m.minFac := Nat.minFac_prime (by omega)
      have hmul : x * m.minFac = m := by
        rw [← heq]; exact Nat.div_mul_cancel (Nat.minFac_dvd m)
      have hsq := Nat.minFac_sq_le_self (by omega : 0 < m) hnp
      have hfx : m.minFac ≤ x := by
        rw [pow_two] at hsq
        have hsq2 : m.minFac * m.minFac ≤ x * m.minFac := by rw [hmul]; exact hsq
        exact Nat.le_of_mul_le_mul_right hsq2 hfp.pos
      have hmem : m.minFac ∈ primesBelow (x + 1) := mem_primesBelow.2 ⟨by omega, hfp⟩
      have := markLoop_complete x max (primesBelow (x + 1)) np m.minFac
        (primesBelow_sorted _) hmem (by omega) (by
          intro q hq hqf hqx
          have hqp := (mem_primesBelow.1 hq).2
          have hqm : q ∣ m := by rw [← hmul]; exact Dvd.dvd.mul_right hqx _
          have := Nat.minFac_le_of_dvd hqp.two_le hqm
          omega)
      rwa [hmul] at this

/-! ## The sieve loop -/

theorem sieveLoop_spec (number max steps : Nat) : ∀ (x : Nat) (np : Nat → Bool), 2 ≤ x →
    x + steps = max + 1 → Marked max x np → (primesBelow x).length < number →
    (∃ k, sieveLoop number max steps x (primesBelow x) np = .inl (primesBelow k) ∧
        (primesBelow k).length = number) ∨
      (sieveLoop number max steps x (primesBelow x) np = .inr (primesBelow (max + 1)) ∧
        (primesBelow (max + 1)).length < number) := by
  induction steps with
  | zero =>
    intro x np _ hsteps _ hlen
    have hx : x = max + 1 := by omega
    subst hx
    exact Or.inr ⟨rfl, hlen⟩
  | succ steps ih =>
    intro x np hx2 hsteps hmarked hlen
    have hxm : x ≤ max := by omega
    have hiff := Marked_prime_iff hmarked hx2 hxm
    have hstep := Marked_step hmarked hx2
    have hsucc := primesBelow_succ x
    by_cases hp : Nat.Prime x
    · have hnp : np x = false := hiff.2 hp
      rw [if_pos hp] at hsucc
      simp only [sieveLoop, hnp, Bool.not_false, if_true, ← hsucc]
      by_cases hfull : (primesBelow (x + 1)).length = number
      · rw [if_pos hfull]
        exact Or.inl ⟨x + 1, rfl, hfull⟩
      · rw [if_neg hfull]
        have hlen2 : (primesBelow (x + 1)).length < number := by
          have : (primesBelow (x + 1)).length = (primesBelow x).length + 1 := by
            rw [hsucc]; simp
          omega
        exact ih (x + 1) _ (by omega) (by omega) hstep hlen2
    · have hnp : np x = true := by
        by_contra hne
        exact hp (hiff.1 (by simpa using hne))
      rw [if_neg hp] at hsucc
      simp only [sieveLoop, hnp, Bool.not_true, Bool.false_eq_true, if_false]
      have := ih (x + 1) _ (by omega) (by omega) hstep (by rw [hsucc]; exact hlen)
      rw [hsucc] at this
      exact this

/-! ## Trial division -/

theorem trialLoop_false (n : Nat) (ps : List Nat) :
    trialLoop n ps = false → ∃ p ∈ ps, p ∣ n := by
  induction ps with
  | nil => intro h; simp [trialLoop] at h
  | cons q rest ih =>
    intro h
    simp only [trialLoop] at h
    split at h
    · simp at h
    · split at h
      · rename_i hmod
        exact ⟨q, List.mem_cons_self _ _, Nat.dvd_of_mod_eq_zero hmod⟩
      · obtain ⟨p, hp, hd⟩ := ih h
        exact ⟨p, List.mem_cons_of_mem _ hp, hd⟩

theorem trialLoop_of_factor (n : Nat) (ps : List Nat) (f : Nat) :
    ps.Pairwise (· < ·) → f ∈ ps → f * f ≤ n → f ∣ n → trialLoop n ps = false := by
  induction ps with
  | nil => intro _ hf; simp at hf
  | cons q rest ih =>
    intro hsorted hf hsq hdvd
    rw [List.pairwise_cons] at hsorted
    have hqf : q ≤ f := by
      rcases List.mem_cons.1 hf with rfl | hrest
      · exact le_refl _
      · exact (hsorted.1 f hrest).le
    have hqq : q * q ≤ n := le_trans (Nat.mul_le_mul hqf hqf) hsq
    simp only [trialLoop]
    rw [if_neg (by omega)]
    by_cases hmod : n % q = 0
    · rw [if_pos hmod]
    · rw [if_neg hmod]
      rcases List.mem_cons.1 hf with rfl | hrest
      · exact absurd (Nat.mod_eq_zero_of_dvd hdvd) hmod
      · exact ih hsorted.2 hrest hsq hdvd

theorem trialLoop_primesBelow (n : Nat) (hn : 2 ≤ n) :
    trialLoop n (primesBelow n) = true ↔ Nat.Prime n := by
  constructor
  · intro htrue
    by_contra hnp
    have hf : Nat.Prime n.minFac := Nat.minFac_prime (by omega)
    have hsq := Nat.minFac_sq_le_self (by omega : 0 < n) hnp
    rw [pow_two] at hsq
    have hlt : n.minFac < n := by
      have := hf.two_le
      nlinarith
    have := trialLoop_of_factor n (primesBelow n) n.minFac (primesBelow_sorted n)
      (mem_primesBelow.2 ⟨hlt, hf⟩) hsq (Nat.minFac_dvd n)
    rw [htrue] at this
    exact Bool.noConfusion this
  · intro hp
    by_contra hne
    have hfalse : trialLoop n (primesBelow n) = false := by simpa using hne
    obtain ⟨p, hmem, hd⟩ := trialLoop_false _ _ hfalse
    obtain ⟨hlt, hpp⟩ := mem_primesBelow.1 hmem
    rcases (Nat.dvd_prime hp).1 hd with h1 | h1
    · exact hpp.one_lt.ne' h1
    · omega

/-! ## The fallback loop -/

theorem length_lt_imp_lt_nth {number max : Nat} (hn : 1 ≤ number)
    (hlen : (primesBelow (max + 1)).length < number) :
    max < Nat.nth Nat.Prime (number - 1) := by
  by_contra hge
  have hmono : Nat.count Nat.Prime (Nat.nth Nat.Prime (number - 1) + 1)
      ≤ Nat.count Nat.Prime (max + 1) := Nat.count_monotone _ (by omega)
  rw [Nat.count_nth_succ_of_infinite Nat.infinite_setOf_prime] at hmono
  rw [length_primesBelow] at hlen
  omega

theorem fallbackLoop_spec (number : Nat) (hn : 1 ≤ number) (fuel : Nat) : ∀ max : Nat, 1 ≤ max →
    (primesBelow (max + 1)).length ≤ number → 1 ≤ fuel →
    Nat.nth Nat.Prime (number - 1) + 1 ≤ max + fuel →
    ∃ k, fallbackLoop number fuel (primesBelow (max + 1)) max = some (primesBelow k) ∧
      (primesBelow k).length = number := by
  induction fuel with
  | zero => intro max _ _ h; omega
  | succ fuel ih =>
    intro max hmax hlen _ hfuel
    by_cases hlt : (primesBelow (max + 1)).length < number
    · have hT := length_lt_imp_lt_nth hn hlt
      have htrial := trialLoop_primesBelow (max + 1) (by omega)
      have hsucc := primesBelow_succ (max + 1)
      have hnext : (if trialLoop (max + 1) (primesBelow (max + 1)) = true
          then primesBelow (max + 1) ++ [max + 1] else primesBelow (max + 1))
          = primesBelow (max + 1 + 1) := by
        by_cases hp : Nat.Prime (max + 1)
        · rw [if_pos (htrial.2 hp), hsucc, if_pos hp]
        · rw [if_neg (fun h => hp (htrial.1 h)), hsucc, if_neg hp]
      have hlen2 : (primesBelow (max + 1 + 1)).length ≤ number := by
        rw [hsucc]
        split
        · simp; omega
        · omega
      simp only [fallbackLoop, hlt, if_true, hnext]
      exact ih (max + 1) (by omega) hlen2 (by omega) (by omega)
    · simp only [fallbackLoop, hlt, if_false]
      exact ⟨max + 1, rfl, by omega⟩

/-! ## `getPrimes` returns the first primes -/

theorem getPrimesFrom_eq (fuel max number : Nat) (hmax : 1 ≤ max) (hn : 1 ≤ number)
    (hfuel : Nat.nth Nat.Prime (number - 1) ≤ fuel) :
    getPrimesFrom fuel max number = some ((List.range number).map (Nat.nth Nat.Prime)) := by
  unfold getPrimesFrom
  have hsieve := sieveLoop_spec number max (max - 1) 2 (fun i => decide (i < 2)) (le_refl _)
    (by omega) (Marked_init max) (by rw [primesBelow_two]; exact hn)
  rw [primesBelow_two] at hsieve
  rcases hsieve with ⟨k, hk, hlen⟩ | ⟨hk, hlen⟩
  · rw [hk]
    exact congrArg some (primesBelow_of_length hlen)
  · rw [hk]
    have hpos : 1 ≤ fuel := le_trans (Nat.prime_nth_prime (number - 1)).one_lt.le hfuel
    obtain ⟨k, hk2, hlen2⟩ := fallbackLoop_spec number hn fuel max hmax hlen.le hpos (by omega)
    simp only [hk2]
    exact congrArg some (primesBelow_of_length hlen2)

theorem getPrimes_eq (fuel : Nat) (est : Nat → Nat) (number : Nat) (hn : 1 ≤ number)
    (hest : 1 ≤ est number) (hfuel : Nat.nth Nat.Prime (number - 1) ≤ fuel) :
    getPrimes fuel est (number : Int) = .ok ((List.range number).map (Nat.nth Nat.Prime)) := by
  unfold getPrimes
  rw [if_neg (by omega)]
  simp only [Int.toNat_ofNat]
  rw [getPrimesFrom_eq fuel (est number) number hest hn hfuel]

/-! ## The seed of an array -/

theorem bit64Power_natCast (p : Nat) (v : Int) (hv : 0 ≤ v) :
    bit64Power (p : Int) v = .ok (p ^ v.toNat % 2 ^ 64) := by
  rw [bit64Power_eq, if_neg (by omega)]
  congr 1
  have h : ((p : Int) ^ v.toNat % 2 ^ 64) = ((p ^ v.toNat % 2 ^ 64 : Nat) : Int) := by
    push_cast; rfl
  rw [h, Int.toNat_ofNat]

theorem seedReduce_eq (primes : List Nat) (array : List Int) : ∀ (index result : Nat),
    (∀ v ∈ array, 0 ≤ v) → index + array.length ≤ primes.length → result < 2 ^ 64 →
    seedReduce primes array index result = .ok ((result * ∏ j in Finset.range array.length,
      primes.getD (index + j) 0 ^ (array.getD j 0).toNat) % 2 ^ 64) := by
  induction array with
  | nil =>
    intro index result _ _ hr
    simp only [seedReduce, List.length_nil, Finset.range_zero, Finset.prod_empty, mul_one,
      Nat.mod_eq_of_lt hr]
  | cons v rest ih =>
    intro index result hnonneg hlen hr
    have hv : 0 ≤ v := hnonneg v (List.mem_cons_self _ _)
    have hidx : index < primes.length := by
      simp only [List.length_cons] at hlen; omega
    have hget : primes[index]? = some (primes.getD index 0) := by
      rw [List.getD_eq_getElem?_getD, List.getElem?_eq_getElem hidx]; rfl
    simp only [seedReduce, hget, bit64Power_natCast _ _ hv, Outcome.bind, land_BIT64]
    rw [ih (index + 1) _ (fun w hw => hnonneg w (List.mem_cons_of_mem _ hw))
      (by simp only [List.length_cons] at hlen; omega) (Nat.mod_lt _ (by norm_num))]
    congr 1
    rw [List.length_cons, Finset.prod_range_succ']
    simp only [List.getD_cons_succ, List.getD_cons_zero, add_zero]
    have hshift : ∀ j, index + 1 + j = index + (j + 1) := fun j => by omega
    simp only [hshift]
    generalize (∏ j in Finset.range rest.length,
      primes.getD (index + (j + 1)) 0 ^ (rest.getD j 0).toNat) = Q
    generalize primes.getD index 0 ^ v.toNat = A
    have h1 : Nat.ModEq (2 ^ 64) (result * (A % 2 ^ 64) % 2 ^ 64) (result * A) :=
      (Nat.mod_modEq _ _).trans (Nat.ModEq.mul_left _ (Nat.mod_modEq _ _))
    calc result * (A % 2 ^ 64) % 2 ^ 64 * Q % 2 ^ 64
        = result * A * Q % 2 ^ 64 := Nat.ModEq.mul_right _ h1
      _ = result * (Q * A) % 2 ^ 64 := by ring_nf

theorem getD_drop_one_nth (n j : Nat) (hj : j < n) :
    (((List.range (n + 1)).map (Nat.nth Nat.Prime)).drop 1).getD (0 + j) 0
      = Nat.nth Nat.Prime (j + 1) := by
  rw [List.getD_eq_getElem?_getD, List.getElem?_drop, List.getElem?_map,
    List.getElem?_range (by omega)]
  simp [add_comm]

theorem getSeedFromArray_eq (fuel : Nat) (est : Nat → Nat) (array : List Int)
    (hne : array ≠ []) (hnonneg : ∀ v ∈ array, 0 ≤ v) (hest : 1 ≤ est (array.length + 1))
    (hfuel : Nat.nth Nat.Prime array.length ≤ fuel) :
    getSeedFromArray fuel est array = .ok ((∏ i in Finset.range array.length,
      Nat.nth Nat.Prime (i + 1) ^ (array.getD i 0).toNat) % 2 ^ 64) := by
  have hlen : ¬ array.length < 1 := by
    have := List.length_pos.2 hne; omega
  have hany : ¬ array.any (fun value => decide (value < 0)) = true := by
    simp only [List.any_eq_true, decide_eq_true_eq, not_exists, not_and, not_lt]
    exact hnonneg
  have hprimes := getPrimes_eq fuel est (array.length + 1) (by omega) hest
    (by simpa using hfuel)
  unfold getSeedFromArray
  rw [if_neg hlen, if_neg hany]
  have hcast : ((array.length : Int) + 1) = ((array.length + 1 : Nat) : Int) := by push_cast; rfl
  rw [hcast, hprimes]
  simp only [Outcome.bind]
  rw [seedReduce_eq _ _ 0 1 hnonneg (by simp) (by norm_num), one_mul]
  congr 2
  apply Finset.prod_congr rfl
  intro j hj
  rw [getD_drop_one_nth _ _ (Finset.mem_range.1 hj)]

/-! ## The ranks of a seed -/

theorem needStep_foldl (nth : List Int) : ∀ (need : Int → JsValue) (m : Int),
    (∀ v ∈ nth, (nth.foldl needStep (need, m)).1 (if v < 0 then 0 else v) = .jsTrue) ∧
    (∀ i, (nth.foldl needStep (need, m)).1 i = .jsTrue ∨
      (nth.foldl needStep (need, m)).1 i = need i) ∧
    (∀ v ∈ nth, (if v < 0 then 0 else v) ≤ (nth.foldl needStep (need, m)).2) ∧
    m ≤ (nth.foldl needStep (need, m)).2 ∧
    (∀ i, i < 0 → (nth.foldl needStep (need, m)).1 i = need i) := by
  induction nth with
  | nil => intro need m; simp
  | cons w rest ih =>
    intro need m
    simp only [List.foldl_cons]
    obtain ⟨h1, h2, h3, h4, h5⟩ := ih (needStep (need, m) w).1 (needStep (need, m) w).2
    have hset : (needStep (need, m) w).1 (if w < 0 then 0 else w) = .jsTrue := by
      simp [needStep, setNeed]
    have hmax : m ≤ (needStep (need, m) w).2 ∧
        (if w < 0 then 0 else w) ≤ (needStep (need, m) w).2 := by
      simp only [needStep]
      constructor <;> split <;> omega
    refine ⟨?_, ?_, ?_, ?_, ?_⟩
    · intro v hv
      rcases List.mem_cons.1 hv with rfl | hv
      · rcases h2 (if v < 0 then 0 else v) with h | h
        · exact h
        · rw [h]; exact hset
      · exact h1 v hv
    · intro i
      rcases h2 i with h | h
      · exact Or.inl h
      · rw [h]
        simp only [needStep, setNeed]
        by_cases hi : i = if w < 0 then 0 else w
        · exact Or.inl (if_pos hi)
        · exact Or.inr (if_neg hi)
    · intro v hv
      rcases List.mem_cons.1 hv with rfl | hv
      · exact le_trans hmax.2 h4
      · exact h3 v hv
    · exact le_trans hmax.1 h4
    · intro i hi
      rw [h5 i hi]
      simp only [needStep, setNeed]
      rw [if_neg]
      split <;> omega

theorem seedAfter_succ (k seed : Nat) :
    seedAfter (k + 1) seed = nextRandomInt64 (seedAfter k seed : Nat) := by
  unfold seedAfter
  rw [Function.iterate_succ_apply']

theorem rankStep_foldl (total : Int) (seed : Nat) (need : Int → JsValue) (t : Nat) :
    ((List.range' 1 t).foldl (rankStep total) (seed, need)).1 = seedAfter t seed ∧
    ∀ i : Int, ((List.range' 1 t).foldl (rankStep total) (seed, need)).2 i =
      if 1 ≤ i ∧ i ≤ t ∧ (need i).truthy = true
      then .number (rankOf (seedAfter i.toNat seed) total) else need i := by
  induction t with
  | zero =>
    refine ⟨rfl, fun i => ?_⟩
    rw [if_neg (by intro h; omega)]
    rfl
  | succ t ih =>
    rw [List.range'_1_concat, List.foldl_append]
    simp only [List.foldl_cons, List.foldl_nil]
    obtain ⟨hseed, hneed⟩ := ih
    have hnext : nextRandomInt64
        (((List.range' 1 t).foldl (rankStep total) (seed, need)).1 : Nat) =
        seedAfter (t + 1) seed := by
      rw [hseed, seedAfter_succ]
    have hcur : ((List.range' 1 t).foldl (rankStep total) (seed, need)).2 ((1 + t : Nat) : Int)
        = need ((1 + t : Nat) : Int) := by
      rw [hneed, if_neg (by intro h; omega)]
    refine ⟨?_, fun i => ?_⟩
    · simp only [rankStep]
      rw [hnext]
    · simp only [rankStep]
      rw [hnext, hcur]
      by_cases htr : (need ((1 + t : Nat) : Int)).truthy = true
      · rw [if_pos htr]
        simp only [setNeed]
        by_cases hi : i = ((1 + t : Nat) : Int)
        · rw [if_pos hi, if_pos ⟨by omega, by omega, by rw [hi]; exact htr⟩]
          have : i.toNat = t + 1 := by omega
          rw [this]
        · rw [if_neg hi, hneed]
          by_cases hc : 1 ≤ i ∧ i ≤ (t : Int) ∧ (need i).truthy = true
          · rw [if_pos hc, if_pos ⟨hc.1, by omega, hc.2.2⟩]
          · rw [if_neg hc, if_neg (by
              intro h
              exact hc ⟨h.1, by push_cast at h hi; omega, h.2.2⟩)]
      · rw [if_neg htr, hneed]
        by_cases hc : 1 ≤ i ∧ i ≤ (t : Int) ∧ (need i).truthy = true
        · rw [if_pos hc, if_pos ⟨hc.1, by omega, hc.2.2⟩]
        · rw [if_neg hc, if_neg (by
            intro h
            by_cases hi : i = ((1 + t : Nat) : Int)
            · rw [hi] at h; exact htr h.2.2
            · exact hc ⟨h.1, by push_cast at h hi; omega, h.2.2⟩)]

theorem ranks_of_foldl (seed : Nat) (total : Int) (nth : List Int) :
    (nth.map fun value => ((List.range' 1 (nth.foldl needStep
        (fun _ => JsValue.undefined, 0)).2.toNat).foldl (rankStep total)
      (seed, if ((nth.foldl needStep (fun _ => JsValue.undefined, 0)).1 0).truthy = true
        then setNeed (nth.foldl needStep (fun _ => JsValue.undefined, 0)).1 0
          (.number (rankOf seed total))
        else (nth.foldl needStep (fun _ => JsValue.undefined, 0)).1)).2 value)
      = nth.map fun v =>
        if v < 0 then JsValue.undefined
        else .number (rankOf (seedAfter v.toNat seed) total) := by
  apply List.map_congr_left
  intro v hv
  obtain ⟨h1, h2, h3, h4, h5⟩ := needStep_foldl nth (fun _ => JsValue.undefined) 0
  obtain ⟨_, hneed⟩ := rankStep_foldl total seed
    (if ((nth.foldl needStep (fun _ => JsValue.undefined, 0)).1 0).truthy = true
      then setNeed (nth.foldl needStep (fun _ => JsValue.undefined, 0)).1 0
        (.number (rankOf seed total))
      else (nth.foldl needStep (fun _ => JsValue.undefined, 0)).1)
    (nth.foldl needStep (fun _ => JsValue.undefined, 0)).2.toNat
  rw [hneed]
  by_cases hneg : v < 0
  · rw [if_neg (by intro h; omega), if_pos hneg]
    have hund := h5 v hneg
    split
    · simp only [setNeed]
      rw [if_neg (by omega)]
      exact hund
    · exact hund
  · have hv0 : 0 ≤ v := not_lt.1 hneg
    have htrue := h1 v hv
    have hle := h3 v hv
    rw [if_neg hneg] at htrue hle
    rw [if_neg hneg]
    by_cases hz : v = 0
    · subst hz
      rw [if_neg (by intro h; omega)]
      rw [htrue]
      simp only [JsValue.truthy, if_true, setNeed]
      rfl
    · have hkeep : (if ((nth.foldl needStep (fun _ => JsValue.undefined, 0)).1 0).truthy = true
          then setNeed (nth.foldl needStep (fun _ => JsValue.undefined, 0)).1 0
            (.number (rankOf seed total))
          else (nth.foldl needStep (fun _ => JsValue.undefined, 0)).1) v = .jsTrue := by
        split
        · simp only [setNeed]
          rw [if_neg hz]
          exact htrue
        · exact htrue
      rw [hkeep, if_pos ⟨by omega, by omega, rfl⟩]

/-! ## The conversion to a double -/

theorem excessBits_eq (steps : Nat) : ∀ b : Nat, b ≤ steps →
    excessBits steps b = Nat.log2 b + 1 - 53 := by
  induction steps with
  | zero =>
    intro b hb
    have hb0 : b = 0 := by omega
    subst hb0
    have h0 : Nat.log2 0 = 0 := by rw [Nat.log2_eq_log_two]; simp
    simp [excessBits, h0]
  | succ steps ih =>
    intro b hb
    simp only [excessBits]
    by_cases hlt : b < 2 ^ 53
    · rw [if_pos hlt]
      by_cases hb0 : b = 0
      · subst hb0
        have h0 : Nat.log2 0 = 0 := by rw [Nat.log2_eq_log_two]; simp
        rw [h0]
      · have := (Nat.log2_lt hb0).2 hlt
        omega
    · rw [if_neg hlt, ih (b / 2) (by omega)]
      have hhalf : 2 ^ 52 ≤ b / 2 := by omega
      have hne : b / 2 ≠ 0 := by omega
      have h52 : 52 ≤ Nat.log2 (b / 2) := (Nat.le_log2 hne).2 hhalf
      have hlog : Nat.log2 b = Nat.log2 (b / 2) + 1 := by
        rw [Nat.log2_eq_log_two, Nat.log2_eq_log_two]
        have := Nat.log_div_base 2 b
        have h1 : 1 ≤ Nat.log 2 b := by
          rw [← Nat.log2_eq_log_two]
          exact le_trans (by norm_num) ((Nat.le_log2 (by omega)).2 (not_lt.1 hlt))
        omega
      omega

theorem toNumber_form (b : Nat) : ∃ c, c ≤ 1 ∧
    toNumber b = (b / 2 ^ (Nat.log2 b + 1 - 53) + c) * 2 ^ (Nat.log2 b + 1 - 53) ∧
    (b % 2 ^ (Nat.log2 b + 1 - 53) = 0 → c = 0) := by
  unfold toNumber
  rw [excessBits_eq b b (le_refl b)]
  simp only [Nat.shiftRight_eq_div_pow, Nat.shiftLeft_eq]
  have hpos : 0 < 2 ^ (Nat.log2 b + 1 - 53) := Nat.pow_pos (by norm_num)
  split
  · exact ⟨0, by omega, by simp, fun _ => rfl⟩
  · split
    · exact ⟨1, le_refl _, rfl, fun h => by omega⟩
    · exact ⟨b / 2 ^ (Nat.log2 b + 1 - 53) % 2, by omega, rfl, fun h => by omega⟩

theorem log2_mono {a b : Nat} (h : a ≤ b) : Nat.log2 a ≤ Nat.log2 b := by
  rw [Nat.log2_eq_log_two, Nat.log2_eq_log_two]
  exact Nat.log_mono_right h

theorem toNumber_of_le (b : Nat) (h : b ≤ 2 ^ 53) : toNumber b = b := by
  obtain ⟨c, _, hform, hzero⟩ := toNumber_form b
  have hmod : b % 2 ^ (Nat.log2 b + 1 - 53) = 0 := by
    rcases Nat.lt_or_eq_of_le h with hlt | heq
    · by_cases hb : b = 0
      · subst hb; simp
      · have : Nat.log2 b < 53 := (Nat.log2_lt hb).2 hlt
        have he : Nat.log2 b + 1 - 53 = 0 := by omega
        rw [he, pow_zero]; exact Nat.mod_one b
    · subst heq
      have hlog : Nat.log2 (2 ^ 53) = 53 := by
        rw [Nat.log2_eq_log_two]; exact Nat.log_pow (by norm_num) 53
      rw [hlog]; norm_num
  rw [hform, hzero hmod, add_zero]
  exact Nat.div_mul_cancel (Nat.dvd_of_mod_eq_zero hmod)

theorem one_le_toNumber (b : Nat) (h : 1 ≤ b) : 1 ≤ toNumber b := by
  obtain ⟨c, _, hform, _⟩ := toNumber_form b
  rw [hform]
  have hpow : 2 ^ (Nat.log2 b + 1 - 53) ≤ b :=
    le_trans (Nat.pow_le_pow_right (by norm_num) (by omega)) (Nat.log2_self_le (by omega))
  have hpos : 0 < 2 ^ (Nat.log2 b + 1 - 53) := Nat.pow_pos (by norm_num)
  have hq : 1 ≤ b / 2 ^ (Nat.log2 b + 1 - 53) := (Nat.one_le_div_iff hpos).2 hpow
  calc 1 ≤ 1 * 1 := by norm_num
    _ ≤ (b / 2 ^ (Nat.log2 b + 1 - 53) + c) * 2 ^ (Nat.log2 b + 1 - 53) :=
      Nat.mul_le_mul (by omega) hpos

theorem toNumber_le_of_le (b d : Nat) (h : b ≤ d) (hd : toNumber d = d) : toNumber b ≤ d := by
  obtain ⟨c, hc, hform, hzero⟩ := toNumber_form b
  obtain ⟨c', _, hform', _⟩ := toNumber_form d
  have hexp : Nat.log2 b + 1 - 53 ≤ Nat.log2 d + 1 - 53 := by
    have := log2_mono h; omega
  have hdvd : 2 ^ (Nat.log2 b + 1 - 53) ∣ d := by
    have h1 : 2 ^ (Nat.log2 d + 1 - 53) ∣ d := by
      rw [hd] at hform'
      exact Dvd.intro_left _ hform'.symm
    exact dvd_trans (Nat.pow_dvd_pow 2 hexp) h1
  generalize 2 ^ (Nat.log2 b + 1 - 53) = P at hform hzero hdvd
  obtain ⟨D, rfl⟩ := hdvd
  rw [hform]
  have hP : 0 < P ∨ P = 0 := by omega
  rcases hP with hP | hP
  · have hdecomp := Nat.div_add_mod b P
    have hlt := Nat.mod_lt b hP
    by_cases hr : b % P = 0
    · rw [hzero hr, add_zero, mul_comm]
      have : P * (b / P) = b := by omega
      rw [this]; exact h
    · have hq : b / P < D := by
        by_contra hge
        have : P * D ≤ P * (b / P) := Nat.mul_le_mul_left P (not_lt.1 hge)
        omega
      calc (b / P + c) * P ≤ D * P := Nat.mul_le_mul_right P (by omega)
        _ = P * D := mul_comm _ _
  · subst hP; simp

/-! ## The loop over `times` -/

theorem needStep_foldl_le (bound : Int) (nth : List Int) : ∀ (need : Int → JsValue) (m : Int),
    m ≤ bound → (∀ v ∈ nth, (if v < 0 then 0 else v) ≤ bound) →
    (nth.foldl needStep (need, m)).2 ≤ bound := by
  induction nth with
  | nil => intro need m hm _; exact hm
  | cons w rest ih =>
    intro need m hm hall
    simp only [List.foldl_cons]
    apply ih
    · have hw := hall w (List.mem_cons_self _ _)
      simp only [needStep]
      split <;> omega
    · exact fun v hv => hall v (List.mem_cons_of_mem _ hv)

theorem maxNth_lt_iff (nth : List Int) :
    (nth.foldl needStep (fun _ => JsValue.undefined, 0)).2 < 2 ^ 53 ↔
      ∀ k ∈ nth, k < 2 ^ 53 := by
  obtain ⟨_, _, h3, _, _⟩ := needStep_foldl nth (fun _ => JsValue.undefined) 0
  constructor
  · intro hlt k hk
    have := h3 k hk
    split at this <;> omega
  · intro hall
    have hle := needStep_foldl_le (2 ^ 53 - 1) nth (fun _ => JsValue.undefined) 0
      (by norm_num) (by
        intro v hv
        have := hall v hv
        split <;> omega)
    omega

theorem rankLoop_exact (total maxNth : Int) (hpos : 0 ≤ maxNth) (hmax : maxNth < 2 ^ 53)
    (steps : Nat) :
    ∀ (times : Nat) (state : Nat × (Int → JsValue)), (times : Int) ≤ maxNth + 1 →
    rankLoop total maxNth steps times state =
      if maxNth.toNat + 1 - times < steps
      then some ((List.range' times (maxNth.toNat + 1 - times)).foldl (rankStep total) state)
      else none := by
  induction steps with
  | zero =>
    intro times state _
    rw [if_neg (by omega)]
    rfl
  | succ steps ih =>
    intro times state hle
    simp only [rankLoop]
    by_cases htest : (times : Int) ≤ maxNth
    · have hnext : toNumber (times + 1) = times + 1 := toNumber_of_le _ (by omega)
      have hsplit : maxNth.toNat + 1 - times = (maxNth.toNat + 1 - (times + 1)) + 1 := by
        omega
      rw [if_pos htest, hnext, ih (times + 1) _ (by push_cast; omega), hsplit,
        List.range'_succ, List.foldl_cons]
      by_cases hlt : maxNth.toNat + 1 - (times + 1) < steps
      · rw [if_pos hlt, if_pos (by omega)]
      · rw [if_neg hlt, if_neg (by omega)]
    · have hzero : maxNth.toNat + 1 - times = 0 := by omega
      rw [if_neg htest, hzero, if_pos (by omega)]
      rfl

theorem rankLoop_diverges (total maxNth : Int) (hmax : 2 ^ 53 ≤ maxNth) (steps : Nat) :
    ∀ (times : Nat) (state : Nat × (Int → JsValue)), times ≤ 2 ^ 53 →
    rankLoop total maxNth steps times state = none := by
  induction steps with
  | zero => intro times state _; rfl
  | succ steps ih =>
    intro times state hle
    have hnext : toNumber (times + 1) ≤ 2 ^ 53 := by
      rcases Nat.lt_or_eq_of_le hle with hlt | heq
      · rw [toNumber_of_le _ (by omega)]
        omega
      · rw [heq]
        decide
    simp only [rankLoop]
    rw [if_pos (by omega)]
    exact ih _ _ hnext

theorem ranksFromSeed_eq (seed : Nat) (total : Int) (nth : List Int) :
    ranksFromSeed seed total nth =
      if ∀ k ∈ nth, k < 2 ^ 53
      then some (nth.map fun v =>
        if v < 0 then JsValue.undefined
        else .number (rankOf (seedAfter v.toNat seed) total))
      else none := by
  obtain ⟨_, _, _, h4, _⟩ := needStep_foldl nth (fun _ => JsValue.undefined) 0
  unfold ranksFromSeed
  simp only
  by_cases hall : ∀ k ∈ nth, k < 2 ^ 53
  · have hmax := (maxNth_lt_iff nth).2 hall
    rw [if_pos hall, rankLoop_exact total _ h4 hmax _ 1 _ (by omega), if_pos (by omega)]
    simp only [Nat.add_sub_cancel]
    exact congrArg some (ranks_of_foldl seed total nth)
  · have hmax : (2 : Int) ^ 53 ≤ (nth.foldl needStep (fun _ => JsValue.undefined, 0)).2 := by
      by_contra hlt
      exact hall ((maxNth_lt_iff nth).1 (not_le.1 hlt))
    rw [if_neg hall, rankLoop_diverges total _ hmax _ 1 _ (by norm_num)]

/-! ## `getRandomRanks` in closed form -/

theorem getArrayFromString_eq (text : String) :
    getArrayFromString text =
      if (jsTrim text.data).length < 1 then .rangeError else .ok (textCodes text) := by
  unfold getArrayFromString textCodes
  simp only [List.length_map]

theorem textCodes_nonneg (text : String) : ∀ v ∈ textCodes text, 0 ≤ v := by
  intro v hv
  unfold textCodes at hv
  obtain ⟨c, _, rfl⟩ := List.mem_map.1 hv
  exact Int.natCast_nonneg _

theorem length_textCodes (text : String) :
    (textCodes text).length = (jsTrim text.data).length := by
  unfold textCodes; simp

theorem getRandomRanks_eq (fuel : Nat) (est : Nat → Nat) (text : String) (params : List Int)
    (total : Int) (nth : List Int) :
    getRandomRanks fuel est text params total nth =
      if (jsTrim text.data).length < 1 then .rangeError
      else if total < 1 then .rangeError
      else (getSeedFromArray fuel est (params ++ textCodes text)).bind fun seed =>
        if ∀ k ∈ nth, k < 2 ^ 53
        then .ok (nth.map fun v => if v < 0 then JsValue.undefined
          else .number (rankOf (seedAfter v.toNat seed) total))
        else .outOfFuel := by
  unfold getRandomRanks
  split
  · rfl
  · split
    · rfl
    · rename_i h _
      rw [getArrayFromString_eq, if_neg h]
      simp only [Outcome.bind, ranksFromSeed_eq]
      congr 1
      funext seed
      by_cases hall : ∀ k ∈ nth, k < 2 ^ 53
      · simp only [if_pos hall]
      · simp only [if_neg hall]

theorem seedReduce_ne_rangeError (primes : List Nat) (array : List Int) :
    ∀ (index result : Nat), (∀ v ∈ array, 0 ≤ v) →
      seedReduce primes array index result ≠ .rangeError := by
  induction array with
  | nil => intro index result _; simp [seedReduce]
  | cons v rest ih =>
    intro index result hnonneg
    have hv : 0 ≤ v := hnonneg v (List.mem_cons_self _ _)
    simp only [seedReduce]
    split
    · simp
    · rw [bit64Power_natCast _ _ hv]
      simp only [Outcome.bind]
      exact ih _ _ (fun w hw => hnonneg w (List.mem_cons_of_mem _ hw))

theorem getPrimes_ne_rangeError (fuel : Nat) (est : Nat → Nat) (number : Int) :
    getPrimes fuel est number = .outOfFuel ∨ ∃ primes, getPrimes fuel est number = .ok primes := by
  unfold getPrimes
  split
  · exact Or.inr ⟨_, rfl⟩
  · split
    · exact Or.inr ⟨_, rfl⟩
    · exact Or.inl rfl

theorem getSeedFromArray_rangeError_iff (fuel : Nat) (est : Nat → Nat) (array : List Int) :
    getSeedFromArray fuel est array = .rangeError ↔ array = [] ∨ ∃ v ∈ array, v < 0 := by
  unfold getSeedFromArray
  constructor
  · intro h
    by_contra hcon
    rw [not_or] at hcon
    have hlen : ¬ array.length < 1 := by
      have := List.length_pos.2 hcon.1; omega
    have hnonneg : ∀ v ∈ array, 0 ≤ v := by
      intro v hv
      by_contra hneg
      exact hcon.2 ⟨v, hv, not_le.1 hneg⟩
    have hany : ¬ array.any (fun value => decide (value < 0)) = true := by
      simp only [List.any_eq_true, decide_eq_true_eq, not_exists, not_and, not_lt]
      exact hnonneg
    rw [if_neg hlen, if_neg hany] at h
    rcases getPrimes_ne_rangeError fuel est (array.length + 1) with hp | ⟨primes, hp⟩
    · rw [hp] at h; simp [Outcome.bind] at h
    · rw [hp] at h
      simp only [Outcome.bind] at h
      exact seedReduce_ne_rangeError _ _ _ _ hnonneg h
  · rintro (rfl | ⟨v, hv, hneg⟩)
    · simp
    · split
      · rfl
      · have hany : array.any (fun value => decide (value < 0)) = true := by
          simp only [List.any_eq_true, decide_eq_true_eq]
          exact ⟨v, hv, hneg⟩
        rw [if_pos hany]

/-! ## From the seed to the ranks -/

theorem rankOf_eq (seed : Nat) (total : Int) (h : 1 ≤ total) :
    rankOf seed total = toNumber (seed % total.toNat + 1) := by
  obtain ⟨t, rfl⟩ : ∃ t : Nat, total = (t : Int) :=
    ⟨total.toNat, (Int.toNat_of_nonneg (by omega)).symm⟩
  unfold rankOf
  rw [← Int.natCast_mod, Int.toNat_ofNat]
  congr 1

theorem seedAfter_lt (k seed : Nat) (h : seed < 2 ^ 64) : seedAfter k seed < 2 ^ 64 := by
  cases k with
  | zero => exact h
  | succ k => rw [seedAfter_succ]; exact nextRandomInt64_lt _

theorem nth_prime_two_eq_five : Nat.nth Nat.Prime 2 = 5 := by
  have h : Nat.count Nat.Prime 5 = 2 := by
    simp only [Nat.count_succ, Nat.count_zero]
    norm_num
  rw [← h]
  exact Nat.nth_count (by norm_num)

theorem getRandomRanks_of_seed (fuel : Nat) (est : Nat → Nat) (text : String)
    (params : List Int) (total : Int) (nth : List Int) (seed0 : Nat)
    (htext : 1 ≤ (jsTrim text.data).length) (htotal : 1 ≤ total)
    (hseed : getSeedFromArray fuel est (params ++ textCodes text) = .ok seed0) :
    getRandomRanks fuel est text params total nth =
      if ∀ k ∈ nth, k < 2 ^ 53
      then .ok (nth.map fun v => if v < 0 then JsValue.undefined
        else .number (toNumber (seedAfter v.toNat seed0 % total.toNat + 1)))
      else .outOfFuel := by
  rw [getRandomRanks_eq, if_neg (by omega), if_neg (by omega), hseed]
  simp only [Outcome.bind, rankOf_eq _ _ htotal]

theorem getRandomRanks_ok_inv (fuel : Nat) (est : Nat → Nat) (text : String)
    (params : List Int) (total : Int) (nth : List Int) (ranks : List JsValue)
    (h : getRandomRanks fuel est text params total nth = .ok ranks) :
    1 ≤ (jsTrim text.data).length ∧ 1 ≤ total ∧ (∀ k ∈ nth, k < 2 ^ 53) ∧
      ∃ seed0, getSeedFromArray fuel est (params ++ textCodes text) = .ok seed0 ∧
        ranks = nth.map fun v => if v < 0 then JsValue.undefined
          else .number (toNumber (seedAfter v.toNat seed0 % total.toNat + 1)) := by
  rw [getRandomRanks_eq] at h
  by_cases htext : (jsTrim text.data).length < 1
  · rw [if_pos htext] at h
    exact Outcome.noConfusion h
  · rw [if_neg htext] at h
    by_cases htotal : total < 1
    · rw [if_pos htotal] at h
      exact Outcome.noConfusion h
    · rw [if_neg htotal] at h
      cases hseed : getSeedFromArray fuel est (params ++ textCodes text) with
      | ok seed0 =>
        rw [hseed] at h
        simp only [Outcome.bind] at h
        by_cases hall : ∀ k ∈ nth, k < 2 ^ 53
        · rw [if_pos hall] at h
          injection h with h
          refine ⟨by omega, by omega, hall, seed0, rfl, ?_⟩
          rw [← h]
          simp only [rankOf_eq _ _ (not_lt.1 htotal)]
        · rw [if_neg hall] at h
          exact Outcome.noConfusion h
      | typeError => rw [hseed] at h; exact Outcome.noConfusion h
      | rangeError => rw [hseed] at h; exact Outcome.noConfusion h
      | outOfFuel => rw [hseed] at h; exact Outcome.noConfusion h

theorem getRandomRanks_never_returns (fuel : Nat) (est : Nat → Nat) (text : String)
    (params : List Int) (total : Int) (nth : List Int) (hbig : ∃ k ∈ nth, 2 ^ 53 ≤ k)
    (ranks : List JsValue) : getRandomRanks fuel est text params total nth ≠ .ok ranks := by
  intro h
  obtain ⟨_, _, hall, _⟩ := getRandomRanks_ok_inv fuel est text params total nth ranks h
  obtain ⟨k, hk, hle⟩ := hbig
  have := hall k hk
  omega

theorem getSeedFromArray_ok (fuel : Nat) (est : Nat → Nat) (text : String)
    (params : List Int) (htext : 1 ≤ (jsTrim text.data).length)
    (hparams : ∀ p ∈ params, 0 ≤ p)
    (hest : 1 ≤ est ((params ++ textCodes text).length + 1))
    (hfuel : Nat.nth Nat.Prime (params ++ textCodes text).length ≤ fuel) :
    getSeedFromArray fuel est (params ++ textCodes text) =
      .ok ((∏ i in Finset.range (params ++ textCodes text).length,
        Nat.nth Nat.Prime (i + 1) ^ ((params ++ textCodes text).getD i 0).toNat) % 2 ^ 64) := by
  apply getSeedFromArray_eq _ _ _ _ _ hest hfuel
  · intro h
    have hlen := congrArg List.length h
    rw [List.length_append, length_textCodes, List.length_nil] at hlen
    omega
  · intro v hv
    rcases List.mem_append.1 hv with h | h
    · exact hparams v h
    · exact textCodes_nonneg text v h

/-! ## Properties of `getRandomRanks` -/

/-- C1, amended. For a text whose trimmed form is non-empty, non-negative `params`,
`total ≥ 1` and `nth` with entries from 0 to `2^53 - 1`, `getRandomRanks` returns the list
obtained from `nth`, in its order and with its duplicates, by sending `k` to
`Number((step^k(seed0) mod total) + 1)`, where `seed0` is the seed of
`params ++ codePoints(trim(text))` and `step^0(seed0) = seed0`. The conversion `Number` rounds to
the nearest double; for `total ≤ 2^53` it changes nothing and the entry is
`(step^k(seed0) mod total) + 1` itself. -/
theorem getRandomRanks_entries (fuel : Nat) (est : Nat → Nat) (text : String)
    (params : List Int) (total : Int) (nth : List Int)
    (htext : 1 ≤ (jsTrim text.data).length) (hparams : ∀ p ∈ params, 0 ≤ p)
    (htotal : 1 ≤ total) (hnth : ∀ k ∈ nth, 0 ≤ k) (hsafe : ∀ k ∈ nth, k < 2 ^ 53)
    (hest : 1 ≤ est ((params ++ textCodes text).length + 1))
    (hfuel : Nat.nth Nat.Prime (params ++ textCodes text).length ≤ fuel) :
    ∃ seed0, getSeedFromArray fuel est (params ++ textCodes text) = .ok seed0 ∧
      seedAfter 0 seed0 = seed0 ∧
      getRandomRanks fuel est text params total nth =
        .ok (nth.map fun k =>
          .number (toNumber (seedAfter k.toNat seed0 % total.toNat + 1))) ∧
      (total ≤ 2 ^ 53 → getRandomRanks fuel est text params total nth =
        .ok (nth.map fun k => .number (seedAfter k.toNat seed0 % total.toNat + 1))) := by
  have hseed := getSeedFromArray_ok fuel est text params htext hparams hest hfuel
  have hranks := getRandomRanks_of_seed fuel est text params total nth _ htext htotal hseed
  rw [if_pos hsafe] at hranks
  have hmap : ∀ f : Nat → Nat,
      (nth.map fun v => if v < 0 then JsValue.undefined else JsValue.number (f v.toNat))
        = nth.map fun k => JsValue.number (f k.toNat) := by
    intro f
    apply List.map_congr_left
    intro v hv
    rw [if_neg (not_lt.2 (hnth v hv))]
  refine ⟨_, hseed, rfl, ?_, ?_⟩
  · rw [hranks]
    exact congrArg Outcome.ok (hmap fun k => toNumber (seedAfter k _ % total.toNat + 1))
  · intro hle
    rw [hranks]
    apply congrArg Outcome.ok
    apply List.map_congr_left
    intro v hv
    rw [if_neg (not_lt.2 (hnth v hv))]
    congr 1
    apply toNumber_of_le
    have hpos : 0 < total.toNat := by omega
    have hlt := Nat.mod_lt (seedAfter v.toNat
      ((∏ i in Finset.range (params ++ textCodes text).length,
        Nat.nth Nat.Prime (i + 1) ^ ((params ++ textCodes text).getD i 0).toNat) % 2 ^ 64)) hpos
    have hcast : total.toNat ≤ 2 ^ 53 := by omega
    omega

/-- The preceding statement at the text "a", no parameters, `total = 10` and
`nth = [5, 5, 1]`. -/
theorem getRandomRanks_entries_witness :
    ∃ seed0, getSeedFromArray 3 estimateSmall ([] ++ textCodes "a") = .ok seed0 ∧
      seedAfter 0 seed0 = seed0 ∧
      getRandomRanks 3 estimateSmall "a" [] 10 [5, 5, 1] =
        .ok (([5, 5, 1] : List Int).map fun k =>
          .number (toNumber (seedAfter k.toNat seed0 % (10 : Int).toNat + 1))) ∧
      ((10 : Int) ≤ 2 ^ 53 → getRandomRanks 3 estimateSmall "a" [] 10 [5, 5, 1] =
        .ok (([5, 5, 1] : List Int).map fun k =>
          .number (seedAfter k.toNat seed0 % (10 : Int).toNat + 1))) :=
  getRandomRanks_entries 3 estimateSmall "a" [] 10 [5, 5, 1] (by decide) (by simp) (by decide)
    (by decide) (by decide) (by decide)
    (by rw [show (([] : List Int) ++ textCodes "a").length = 1 from by decide]
        exact Nat.nth_prime_one_eq_three.le)

/-- C1 fails as stated in two places. At `total = 2^60`, for the text "a", no parameters and
`nth = [0]`, the seed is 12187287795601273475, the entry required by the claim is
`(seed0 mod 2^60) + 1 = 658072749532803716`, and the entry returned is the double nearest to it,
658072749532803712. At `nth = [2^53]`, with `total = 10`, nothing is returned: the counter
`times` reaches `2^53`, where `++times` leaves it unchanged, and the loop of lines 192-195 never
ends. -/
theorem getRandomRanks_entries_large_total :
    getSeedFromArray 3 estimateSmall ([] ++ textCodes "a") = .ok 12187287795601273475 ∧
      seedAfter 0 12187287795601273475 % (2 ^ 60 : Int).toNat + 1 = 658072749532803716 ∧
      getRandomRanks 3 estimateSmall "a" [] (2 ^ 60) [0]
        = .ok [.number 658072749532803712] ∧
      getRandomRanks 3 estimateSmall "a" [] (2 ^ 60) [0] ≠
        .ok (([0] : List Int).map fun k => .number
          (seedAfter k.toNat 12187287795601273475 % (2 ^ 60 : Int).toNat + 1)) ∧
      toNumber (2 ^ 53 + 1) = 2 ^ 53 ∧
      ¬ ∃ (fuel : Nat) (est : Nat → Nat) (ranks : List JsValue),
        getRandomRanks fuel est "a" [] 10 [2 ^ 53] = .ok ranks :=
  ⟨by decide, by decide, by decide, by decide, by decide, fun ⟨fuel, est, ranks, h⟩ =>
    getRandomRanks_never_returns fuel est "a" [] 10 [2 ^ 53]
      ⟨2 ^ 53, List.mem_singleton.2 rfl, le_refl _⟩ ranks h⟩

/-- C2. For a valid call (trimmed text non-empty, non-negative `params`, `total ≥ 1` a value of
type `number`, non-negative `nth`), every entry of a returned list is a rank `r` with
`1 ≤ r ≤ total`, and the list has the length of `nth`; the call does return when the entries of
`nth` are below `2^53`. -/
theorem getRandomRanks_range (fuel : Nat) (est : Nat → Nat) (text : String)
    (params : List Int) (total : Int) (nth : List Int)
    (htext : 1 ≤ (jsTrim text.data).length) (hparams : ∀ p ∈ params, 0 ≤ p)
    (htotal : 1 ≤ total) (hdouble : toNumber total.toNat = total.toNat)
    (hnth : ∀ k ∈ nth, 0 ≤ k) :
    (∀ ranks, getRandomRanks fuel est text params total nth = .ok ranks →
      ranks.length = nth.length ∧
        ∀ value ∈ ranks, ∃ r : Nat, value = .number r ∧ 1 ≤ r ∧ (r : Int) ≤ total) ∧
    (1 ≤ est ((params ++ textCodes text).length + 1) →
      Nat.nth Nat.Prime (params ++ textCodes text).length ≤ fuel →
      (∀ k ∈ nth, k < 2 ^ 53) →
      ∃ ranks, getRandomRanks fuel est text params total nth = .ok ranks) := by
  constructor
  · intro ranks hranks
    obtain ⟨_, _, _, seed0, _, rfl⟩ :=
      getRandomRanks_ok_inv fuel est text params total nth ranks hranks
    refine ⟨by simp, ?_⟩
    intro value hvalue
    obtain ⟨v, hv, rfl⟩ := List.mem_map.1 hvalue
    rw [if_neg (not_lt.2 (hnth v hv))]
    refine ⟨_, rfl, one_le_toNumber _ (by omega), ?_⟩
    have hpos : 0 < total.toNat := by omega
    have hlt := Nat.mod_lt (seedAfter v.toNat seed0) hpos
    have hle := toNumber_le_of_le (seedAfter v.toNat seed0 % total.toNat + 1) total.toNat
      (by omega) hdouble
    omega
  · intro hest hfuel hsafe
    have hseed := getSeedFromArray_ok fuel est text params htext hparams hest hfuel
    have hranks := getRandomRanks_of_seed fuel est text params total nth _ htext htotal hseed
    rw [if_pos hsafe] at hranks
    exact ⟨_, hranks⟩

/-- The preceding statement at the text "a", no parameters, `total = 2^60` and
`nth = [0, 100]`: the call returns two ranks between 1 and `2^60`. -/
theorem getRandomRanks_range_witness :
    ∃ ranks, getRandomRanks 3 estimateSmall "a" [] (2 ^ 60) [0, 100] = .ok ranks ∧
      ranks.length = [(0 : Int), 100].length ∧
      ∀ value ∈ ranks, ∃ r : Nat, value = .number r ∧ 1 ≤ r ∧ (r : Int) ≤ 2 ^ 60 :=
  have h := getRandomRanks_range 3 estimateSmall "a" [] (2 ^ 60) [0, 100] (by decide) (by simp)
    (by decide) (by decide) (by decide)
  have hret := h.2 (by decide)
    (by rw [show (([] : List Int) ++ textCodes "a").length = 1 from by decide]
        exact Nat.nth_prime_one_eq_three.le) (by decide)
  hret.elim fun ranks hranks => ⟨ranks, hranks, (h.1 ranks hranks).1, (h.1 ranks hranks).2⟩

/-- C3. The result of `getRandomRanks` is a function of its four arguments alone: it depends
neither on the value that the floating-point estimate of `getPrimes` takes (as long as that
value is at least 1, which it is for every count from 2 on) nor on the fuel given to the
fallback loop (as long as the loop is allowed to reach the last prime that is asked for), and
the embedding reads no other state. -/
theorem getRandomRanks_deterministic (fuel₁ fuel₂ : Nat) (est₁ est₂ : Nat → Nat)
    (text : String) (params : List Int) (total : Int) (nth : List Int)
    (hest₁ : 1 ≤ est₁ ((params ++ textCodes text).length + 1))
    (hest₂ : 1 ≤ est₂ ((params ++ textCodes text).length + 1))
    (hfuel₁ : Nat.nth Nat.Prime (params ++ textCodes text).length ≤ fuel₁)
    (hfuel₂ : Nat.nth Nat.Prime (params ++ textCodes text).length ≤ fuel₂) :
    getRandomRanks fuel₁ est₁ text params total nth
      = getRandomRanks fuel₂ est₂ text params total nth := by
  rw [getRandomRanks_eq, getRandomRanks_eq]
  by_cases htext : (jsTrim text.data).length < 1
  · rw [if_pos htext, if_pos htext]
  · rw [if_neg htext, if_neg htext]
    by_cases htotal : total < 1
    · rw [if_pos htotal, if_pos htotal]
    · rw [if_neg htotal, if_neg htotal]
      by_cases hparams : ∀ p ∈ params, 0 ≤ p
      · rw [getSeedFromArray_ok fuel₁ est₁ text params (by omega) hparams hest₁ hfuel₁,
          getSeedFromArray_ok fuel₂ est₂ text params (by omega) hparams hest₂ hfuel₂]
      · have hneg : params ++ textCodes text = [] ∨ ∃ v ∈ params ++ textCodes text, v < 0 := by
          simp only [not_forall, not_le] at hparams
          obtain ⟨p, hp, hlt⟩ := hparams
          exact Or.inr ⟨p, List.mem_append_left _ hp, hlt⟩
        rw [(getSeedFromArray_rangeError_iff fuel₁ est₁ _).2 hneg,
          (getSeedFromArray_rangeError_iff fuel₂ est₂ _).2 hneg]

/-- The preceding statement at two different estimates and fuels. -/
theorem getRandomRanks_deterministic_witness :
    getRandomRanks 3 estimateSmall "a" [] 10 [100]
      = getRandomRanks 50 (fun _ => 1) "a" [] 10 [100] :=
  getRandomRanks_deterministic 3 50 estimateSmall (fun _ => 1) "a" [] 10 [100] (by decide)
    (by decide)
    (by rw [show (([] : List Int) ++ textCodes "a").length = 1 from by decide]
        exact Nat.nth_prime_one_eq_three.le)
    (by rw [show (([] : List Int) ++ textCodes "a").length = 1 from by decide,
          Nat.nth_prime_one_eq_three]
        decide)

/-- C4 does not hold of the code. The loop of lines 186-190 records a negative entry of `nth`
under index 0, but line 196 reads `need` at the entry itself: for the text "a", no parameters,
`total = 10` and `nth = [-1]` the result is `[undefined]`, while `nth = [0]` gives `[6]`. -/
theorem getRandomRanks_negative_entry :
    getRandomRanks 3 estimateSmall "a" [] 10 [-1] = .ok [.undefined] ∧
      getRandomRanks 3 estimateSmall "a" [] 10 [0] = .ok [.number 6] ∧
      getRandomRanks 3 estimateSmall "a" [] 10 [-1]
        ≠ getRandomRanks 3 estimateSmall "a" [] 10 [0] := by
  decide

/-! ## Properties of `getSeedFromArray`, `getPrimes`, `nextRandomInt64` and `bit64Power` -/

theorem first_two_primes : (List.range 2).map (Nat.nth Nat.Prime) = [2, 3] := by
  rw [show List.range 2 = [0, 1] from rfl]
  simp only [List.map_cons, List.map_nil, Nat.nth_prime_zero_eq_two,
    Nat.nth_prime_one_eq_three]

theorem first_three_primes : (List.range 3).map (Nat.nth Nat.Prime) = [2, 3, 5] := by
  rw [show List.range 3 = [0, 1, 2] from rfl]
  simp only [List.map_cons, List.map_nil, Nat.nth_prime_zero_eq_two,
    Nat.nth_prime_one_eq_three, nth_prime_two_eq_five]

/-- C5. For a non-empty array of non-negative integers, `getSeedFromArray` returns the product
of `q_i ^ array[i]` modulo `2^64`, where `q_i` is the prime of index `i + 1` in the ascending
sequence of all primes (3, 5, 7, 11, ...); when the product is below `2^64` the seed is the
product itself, and the arrays `[0]`, `[1]` and `[1, 2]` have the seeds 1, 3 and 75. -/
theorem getSeedFromArray_product (fuel : Nat) (est : Nat → Nat) :
    (∀ array : List Int, array ≠ [] → (∀ v ∈ array, 0 ≤ v) → 1 ≤ est (array.length + 1) →
      Nat.nth Nat.Prime array.length ≤ fuel →
      getSeedFromArray fuel est array = .ok ((∏ i in Finset.range array.length,
        Nat.nth Nat.Prime (i + 1) ^ (array.getD i 0).toNat) % 2 ^ 64) ∧
      ((∏ i in Finset.range array.length,
        Nat.nth Nat.Prime (i + 1) ^ (array.getD i 0).toNat) < 2 ^ 64 →
        getSeedFromArray fuel est array = .ok (∏ i in Finset.range array.length,
          Nat.nth Nat.Prime (i + 1) ^ (array.getD i 0).toNat))) ∧
    (1 ≤ est 2 → 3 ≤ fuel →
      getSeedFromArray fuel est [0] = .ok 1 ∧ getSeedFromArray fuel est [1] = .ok 3) ∧
    (1 ≤ est 3 → 5 ≤ fuel → getSeedFromArray fuel est [1, 2] = .ok 75) := by
  refine ⟨?_, ?_, ?_⟩
  · intro array hne hnonneg hest hfuel
    have h := getSeedFromArray_eq fuel est array hne hnonneg hest hfuel
    refine ⟨h, fun hlt => ?_⟩
    rw [h, Nat.mod_eq_of_lt hlt]
  · intro hest hfuel
    have hp := getPrimes_eq fuel est 2 (by norm_num) hest
      (by rw [Nat.nth_prime_one_eq_three]; exact hfuel)
    rw [first_two_primes] at hp
    constructor
    · unfold getSeedFromArray
      rw [if_neg (by decide), if_neg (by decide)]
      rw [show (([0] : List Int).length : Int) + 1 = ((2 : Nat) : Int) from rfl, hp]
      decide
    · unfold getSeedFromArray
      rw [if_neg (by decide), if_neg (by decide)]
      rw [show (([1] : List Int).length : Int) + 1 = ((2 : Nat) : Int) from rfl, hp]
      decide
  · intro hest hfuel
    have hp := getPrimes_eq fuel est 3 (by norm_num) hest
      (by rw [nth_prime_two_eq_five]; exact hfuel)
    rw [first_three_primes] at hp
    unfold getSeedFromArray
    rw [if_neg (by decide), if_neg (by decide)]
    rw [show (([1, 2] : List Int).length : Int) + 1 = ((3 : Nat) : Int) from rfl, hp]
    decide

/-- The preceding statement at fuel 5 and the tabulated estimate. -/
theorem getSeedFromArray_product_witness :
    getSeedFromArray 5 estimateSmall [0] = .ok 1 ∧
      getSeedFromArray 5 estimateSmall [1] = .ok 3 ∧
      getSeedFromArray 5 estimateSmall [1, 2] = .ok 75 ∧
      getSeedFromArray 5 estimateSmall [64, 0] =
        .ok ((∏ i in Finset.range ([64, 0] : List Int).length,
          Nat.nth Nat.Prime (i + 1) ^ (([64, 0] : List Int).getD i 0).toNat) % 2 ^ 64) :=
  ⟨((getSeedFromArray_product 5 estimateSmall).2.1 (by decide) (by decide)).1,
    ((getSeedFromArray_product 5 estimateSmall).2.1 (by decide) (by decide)).2,
    (getSeedFromArray_product 5 estimateSmall).2.2 (by decide) (by decide),
    ((getSeedFromArray_product 5 estimateSmall).1 [64, 0] (by simp) (by simp) (by decide)
      (by rw [show ([64, 0] : List Int).length = 2 from rfl, nth_prime_two_eq_five])).1⟩

/-- C6 does not hold of the code at `count = 1`. There the estimate is
`Math.round(1 * Math.log(1) * 1.5) = 0`, the sieve loop does not run, and the fallback loop
accepts the candidate 1, which no prime divides: `getPrimes(1)` is `[1]`, not `[2]`. (For
`count ≤ 0` the result is `[]`, and `getPrimes(5)` is `[2, 3, 5, 7, 11]`.) -/
theorem getPrimes_one :
    getPrimes 2 estimateSmall 1 = .ok [1] ∧
      getPrimes 2 estimateSmall 1 ≠ .ok [2] ∧
      getPrimes 2 estimateSmall 0 = .ok [] ∧
      getPrimes 2 estimateSmall 5 = .ok [2, 3, 5, 7, 11] := by
  decide

/-- C7. `nextRandomInt64` is one xorshift round with shifts (32 left, 13 right, 1 left) on the
seed reduced modulo `2^64`: it returns `s3`, where `s0 = seed mod 2^64`,
`s1 = s0 xor ((s0 << 32) mod 2^64)`, `s2 = s1 xor (s1 >> 13)` and
`s3 = s2 xor ((s2 << 1) mod 2^64)`; this is the value of the same three operations on the
64-bit word of the seed, and it is below `2^64`. -/
theorem nextRandomInt64_refines (seed : Int) :
    nextRandomInt64 seed =
        (((seed % 2 ^ 64).toNat ^^^ (((seed % 2 ^ 64).toNat <<< 32) % 2 ^ 64))
            ^^^ (((seed % 2 ^ 64).toNat ^^^ (((seed % 2 ^ 64).toNat <<< 32) % 2 ^ 64)) >>> 13))
          ^^^ (((((seed % 2 ^ 64).toNat ^^^ (((seed % 2 ^ 64).toNat <<< 32) % 2 ^ 64))
            ^^^ (((seed % 2 ^ 64).toNat ^^^ (((seed % 2 ^ 64).toNat <<< 32) % 2 ^ 64)) >>> 13))
              <<< 1) % 2 ^ 64) ∧
      nextRandomInt64 seed = (xorshiftWord (BitVec.ofInt 64 seed)).toNat ∧
      nextRandomInt64 seed < 2 ^ 64 := by
  refine ⟨?_, nextRandomInt64_word seed, nextRandomInt64_lt seed⟩
  rw [nextRandomInt64_unfold, mask64_eq]

/-- C8. `bit64Power(x, k)` throws a `RangeError` for `k < 0` and otherwise returns
`(x^k) mod 2^64`, a value in `[0, 2^64)` that only depends on `x mod 2^64`; in particular
`bit64Power(x, 0) = 1` for every `x` and `bit64Power(2, 64) = 0`. -/
theorem bit64Power_spec (x k : Int) :
    bit64Power x k = (if k < 0 then .rangeError else .ok (x ^ k.toNat % 2 ^ 64).toNat) ∧
      (x ^ k.toNat % 2 ^ 64).toNat < 2 ^ 64 ∧
      bit64Power x k = bit64Power (x % 2 ^ 64) k ∧
      bit64Power x 0 = .ok 1 ∧
      bit64Power 0 0 = .ok 1 ∧
      bit64Power 2 64 = .ok 0 := by
  refine ⟨bit64Power_eq x k, ?_, ?_, ?_, by decide, by decide⟩
  · have h := Int.emod_lt_of_pos (x ^ k.toNat) (by norm_num : (0 : Int) < 2 ^ 64)
    omega
  · rw [bit64Power_eq, bit64Power_eq]
    have h : (x % 2 ^ 64) ^ k.toNat % 2 ^ 64 = x ^ k.toNat % 2 ^ 64 :=
      Int.ModEq.pow _ (Int.mod_modEq x (2 ^ 64))
    rw [h]
  · rw [bit64Power_eq]
    simp

/-! ## The range errors -/

theorem getRandomRanks_eq_rangeError_iff (fuel : Nat) (est : Nat → Nat) (text : String)
    (params : List Int) (total : Int) (nth : List Int) :
    getRandomRanks fuel est text params total nth = .rangeError ↔
      (jsTrim text.data = [] ∨ total < 1 ∨ ∃ p ∈ params, p < 0) := by
  constructor
  · intro herr
    by_contra hvalid
    simp only [not_or, not_exists, not_and, not_lt] at hvalid
    obtain ⟨htext, htotal, hparams⟩ := hvalid
    have hlen : ¬ (jsTrim text.data).length < 1 := by
      have := List.length_pos.2 htext; omega
    rw [getRandomRanks_eq, if_neg hlen, if_neg (not_lt.2 htotal)] at herr
    have hseed : getSeedFromArray fuel est (params ++ textCodes text) ≠ .rangeError := by
      intro h
      rcases (getSeedFromArray_rangeError_iff fuel est _).1 h with hnil | ⟨v, hv, hneg⟩
      · have := congrArg List.length hnil
        rw [List.length_append, length_textCodes, List.length_nil] at this
        omega
      · rcases List.mem_append.1 hv with hp | hc
        · have := hparams v hp; omega
        · have := textCodes_nonneg text v hc; omega
    cases hcase : getSeedFromArray fuel est (params ++ textCodes text) with
    | ok seed0 =>
      rw [hcase] at herr
      simp only [Outcome.bind] at herr
      split at herr <;> exact Outcome.noConfusion herr
    | typeError => rw [hcase] at herr; exact Outcome.noConfusion herr
    | rangeError => exact hseed hcase
    | outOfFuel => rw [hcase] at herr; exact Outcome.noConfusion herr
  · intro hbad
    rw [getRandomRanks_eq]
    by_cases htext : (jsTrim text.data).length < 1
    · rw [if_pos htext]
    · rw [if_neg htext]
      by_cases htotal : total < 1
      · rw [if_pos htotal]
      · rw [if_neg htotal]
        have hneg : ∃ p ∈ params, p < 0 := by
          rcases hbad with h | h | h
          · rw [h] at htext; simp at htext
          · exact absurd h htotal
          · exact h
        obtain ⟨p, hp, hlt⟩ := hneg
        rw [(getSeedFromArray_rangeError_iff fuel est _).2
          (Or.inr ⟨p, List.mem_append_left _ hp, hlt⟩)]
        rfl

/-- C9, amended. On integer-typed inputs `getRandomRanks` throws a `RangeError` exactly when
the trimmed text is empty, or `total < 1`, or some element of `params` is negative. On every
other input whose entries of `nth` are below `2^53` it returns a list, which has one entry for
each entry of `nth`; on every other input with an entry of `nth` from `2^53` on it returns
nothing, the loop of lines 192-195 never ending. -/
theorem getRandomRanks_rangeError (fuel : Nat) (est : Nat → Nat) (text : String)
    (params : List Int) (total : Int) (nth : List Int) :
    (getRandomRanks fuel est text params total nth = .rangeError ↔
      (jsTrim text.data = [] ∨ total < 1 ∨ ∃ p ∈ params, p < 0)) ∧
    (¬ (jsTrim text.data = [] ∨ total < 1 ∨ ∃ p ∈ params, p < 0) →
      (∀ k ∈ nth, k < 2 ^ 53) →
      1 ≤ est ((params ++ textCodes text).length + 1) →
      Nat.nth Nat.Prime (params ++ textCodes text).length ≤ fuel →
      ∃ ranks, getRandomRanks fuel est text params total nth = .ok ranks ∧
        ranks.length = nth.length) ∧
    ((∃ k ∈ nth, 2 ^ 53 ≤ k) →
      ∀ ranks, getRandomRanks fuel est text params total nth ≠ .ok ranks) := by
  refine ⟨getRandomRanks_eq_rangeError_iff fuel est text params total nth, ?_,
    getRandomRanks_never_returns fuel est text params total nth⟩
  intro hvalid hsafe hest hfuel
  simp only [not_or, not_exists, not_and, not_lt] at hvalid
  obtain ⟨htext, htotal, hparams⟩ := hvalid
  have hlen : 1 ≤ (jsTrim text.data).length := by
    have := List.length_pos.2 htext; omega
  have hseed := getSeedFromArray_ok fuel est text params hlen hparams hest hfuel
  have hranks := getRandomRanks_of_seed fuel est text params total nth _ hlen htotal hseed
  rw [if_pos hsafe] at hranks
  exact ⟨_, hranks, by simp⟩

/-- The preceding statement at a blank text, then at the text "a" with `nth = [100]`. -/
theorem getRandomRanks_rangeError_witness :
    getRandomRanks 3 estimateSmall " " [] 10 [100] = .rangeError ∧
      getRandomRanks 3 estimateSmall "a" [] 0 [100] = .rangeError ∧
      ∃ ranks, getRandomRanks 3 estimateSmall "a" [] 10 [100] = .ok ranks ∧
        ranks.length = ([100] : List Int).length :=
  ⟨(getRandomRanks_rangeError 3 estimateSmall " " [] 10 [100]).1.2 (Or.inl (by decide)),
    (getRandomRanks_rangeError 3 estimateSmall "a" [] 0 [100]).1.2
      (Or.inr (Or.inl (by decide))),
    (getRandomRanks_rangeError 3 estimateSmall "a" [] 10 [100]).2.1 (by decide) (by decide)
      (by decide)
      (by rw [show (([] : List Int) ++ textCodes "a").length = 1 from by decide]
          exact Nat.nth_prime_one_eq_three.le)⟩

/-- C9 fails as stated at the text "b", no parameters, `total = 1` and `nth = [0, 2^53]`: the
text is not blank, `total ≥ 1` and no parameter is negative, so no `RangeError` is thrown, but
no list is returned either, whatever the fuel and the estimate: the counter `times` stays at
`2^53`, below or equal to `maxNth`, and the loop of lines 192-195 never ends. -/
theorem getRandomRanks_unsafe_entry_no_result :
    jsTrim "b".data ≠ [] ∧ ¬ ((1 : Int) < 1) ∧ (¬ ∃ p ∈ ([] : List Int), p < 0) ∧
      (¬ ∃ (fuel : Nat) (est : Nat → Nat),
        getRandomRanks fuel est "b" [] 1 [0, 2 ^ 53] = .rangeError) ∧
      ¬ ∃ (fuel : Nat) (est : Nat → Nat) (ranks : List JsValue),
        getRandomRanks fuel est "b" [] 1 [0, 2 ^ 53] = .ok ranks :=
  ⟨by decide, by decide, by simp,
    fun ⟨fuel, est, h⟩ => by
      rcases (getRandomRanks_eq_rangeError_iff fuel est "b" [] 1 [0, 2 ^ 53]).1 h
        with h1 | h1 | h1
      · exact absurd h1 (by decide)
      · exact absurd h1 (by decide)
      · simp at h1,
    fun ⟨fuel, est, ranks, h⟩ =>
      getRandomRanks_never_returns fuel est "b" [] 1 [0, 2 ^ 53]
        ⟨2 ^ 53, by simp, le_refl _⟩ ranks h⟩

/-- C10. `getSeedFromArray` throws a `RangeError` exactly when its array is empty or holds a
negative element. On a non-empty array of non-negative integers `getPrimes(n + 1)` without its
first element has exactly `n` elements, so that every lookup `primes[index]` is in bounds, and a
seed is returned. -/
theorem getSeedFromArray_rangeError (fuel : Nat) (est : Nat → Nat) (array : List Int)
    (hest : 1 ≤ est (array.length + 1)) (hfuel : Nat.nth Nat.Prime array.length ≤ fuel) :
    (getSeedFromArray fuel est array = .rangeError ↔ (array = [] ∨ ∃ v ∈ array, v < 0)) ∧
    getSeedFromArray fuel est [] = .rangeError ∧
    (∃ primes, getPrimes fuel est (array.length + 1) = .ok primes ∧
      (primes.drop 1).length = array.length) ∧
    (array ≠ [] → (∀ v ∈ array, 0 ≤ v) →
      ∃ seed, getSeedFromArray fuel est array = .ok seed ∧ seed < 2 ^ 64) := by
  refine ⟨getSeedFromArray_rangeError_iff fuel est array, rfl, ?_, ?_⟩
  · have hprimes := getPrimes_eq fuel est (array.length + 1) (by omega) hest
      (by simpa using hfuel)
    have hcast : ((array.length : Int) + 1) = ((array.length + 1 : Nat) : Int) := by
      push_cast; rfl
    refine ⟨(List.range (array.length + 1)).map (Nat.nth Nat.Prime), ?_, ?_⟩
    · rw [hcast, hprimes]
    · simp
  · intro hne hnonneg
    exact ⟨_, getSeedFromArray_eq fuel est array hne hnonneg hest hfuel,
      Nat.mod_lt _ (by norm_num)⟩

/-- The preceding statement at the array `[1, -2]`. -/
theorem getSeedFromArray_rangeError_witness :
    (getSeedFromArray 5 estimateSmall [1, -2] = .rangeError ↔
      (([1, -2] : List Int) = [] ∨ ∃ v ∈ ([1, -2] : List Int), v < 0)) ∧
    getSeedFromArray 5 estimateSmall [] = .rangeError ∧
    (∃ primes, getPrimes 5 estimateSmall (([1, -2] : List Int).length + 1) = .ok primes ∧
      (primes.drop 1).length = ([1, -2] : List Int).length) ∧
    (([1, -2] : List Int) ≠ [] → (∀ v ∈ ([1, -2] : List Int), 0 ≤ v) →
      ∃ seed, getSeedFromArray 5 estimateSmall [1, -2] = .ok seed ∧ seed < 2 ^ 64) :=
  getSeedFromArray_rangeError 5 estimateSmall [1, -2] (by decide)
    (by rw [show ([1, -2] : List Int).length = 2 from rfl, nth_prime_two_eq_five])

/-! ## Trimming -/

theorem dropWhile_append_of_all (w l : List Char) (hw : w.all isWhiteSpace = true) :
    (w ++ l).dropWhile isWhiteSpace = l.dropWhile isWhiteSpace := by
  induction w with
  | nil => rfl
  | cons c w ih =>
    simp only [List.all_cons, Bool.and_eq_true] at hw
    simp only [List.cons_append, List.dropWhile_cons, hw.1, if_true]
    exact ih hw.2

theorem dropWhile_append_of_ne_nil (l w : List Char) (hl : l.dropWhile isWhiteSpace ≠ []) :
    (l ++ w).dropWhile isWhiteSpace = l.dropWhile isWhiteSpace ++ w := by
  induction l with
  | nil => simp at hl
  | cons c l ih =>
    simp only [List.cons_append, List.dropWhile_cons] at hl ⊢
    by_cases hc : isWhiteSpace c = true
    · simp only [hc, if_true] at hl ⊢
      exact ih hl
    · simp only [hc, if_false]
      rfl

theorem jsTrim_append_left (w l : List Char) (hw : w.all isWhiteSpace = true) :
    jsTrim (w ++ l) = jsTrim l := by
  unfold jsTrim
  rw [dropWhile_append_of_all w l hw]

theorem jsTrim_append_right (l w : List Char) (hw : w.all isWhiteSpace = true) :
    jsTrim (l ++ w) = jsTrim l := by
  unfold jsTrim
  by_cases hl : l.dropWhile isWhiteSpace = []
  · have hall : (l ++ w).dropWhile isWhiteSpace = [] := by
      rw [List.dropWhile_eq_nil_iff] at hl ⊢
      intro c hc
      rcases List.mem_append.1 hc with h | h
      · exact hl c h
      · exact List.all_eq_true.1 hw c h
    rw [hl, hall]
  · rw [dropWhile_append_of_ne_nil l w hl, List.reverse_append,
      dropWhile_append_of_all w.reverse _ (by simpa using hw)]

theorem jsTrim_cons (c : Char) (l : List Char) (hc : isWhiteSpace c = false)
    (hl : jsTrim l ≠ []) (hlead : l.dropWhile isWhiteSpace = l) :
    jsTrim (c :: l) = c :: jsTrim l := by
  unfold jsTrim at hl ⊢
  rw [hlead] at hl ⊢
  have hrev : l.reverse.dropWhile isWhiteSpace ≠ [] := by
    intro h
    rw [h] at hl
    exact hl rfl
  simp only [List.dropWhile_cons, hc, Bool.false_eq_true, if_false, List.reverse_cons]
  rw [dropWhile_append_of_ne_nil _ _ hrev, List.reverse_append]
  rfl

theorem jsTrim_surround (w1 t w2 : String) (hw1 : w1.data.all isWhiteSpace = true)
    (hw2 : w2.data.all isWhiteSpace = true) :
    jsTrim (w1 ++ t ++ w2).data = jsTrim t.data := by
  rw [String.data_append, String.data_append, jsTrim_append_right _ _ hw2,
    jsTrim_append_left _ _ hw1]

theorem getArrayFromString_rangeError_iff (text : String) :
    getArrayFromString text = .rangeError ↔ jsTrim text.data = [] := by
  rw [getArrayFromString_eq]
  constructor
  · intro h
    by_contra hne
    have := List.length_pos.2 hne
    rw [if_neg (by omega)] at h
    exact Outcome.noConfusion h
  · intro h
    rw [h]
    rfl

/-- C11. Outer whitespace of the text is ignored: for a text `t` whose trimmed form is
non-empty and strings `w1`, `w2` of whitespace characters, `getArrayFromString` returns on
`w1 ++ t ++ w2` what it returns on `t`, namely the list (of length at least 1) of the code points
of `trim(t)` in order, and `getRandomRanks` has the same result on both texts, whatever the
other arguments; `getArrayFromString` throws a `RangeError` exactly when the trimmed text is
empty. -/
theorem getArrayFromString_outer_whitespace (fuel : Nat) (est : Nat → Nat) (w1 t w2 : String)
    (params : List Int) (total : Int) (nth : List Int)
    (hw1 : w1.data.all isWhiteSpace = true) (hw2 : w2.data.all isWhiteSpace = true)
    (ht : jsTrim t.data ≠ []) :
    getArrayFromString (w1 ++ t ++ w2) = getArrayFromString t ∧
      getArrayFromString t = .ok ((jsTrim t.data).map fun char => (char.toNat : Int)) ∧
      1 ≤ ((jsTrim t.data).map fun char => (char.toNat : Int)).length ∧
      getRandomRanks fuel est (w1 ++ t ++ w2) params total nth
        = getRandomRanks fuel est t params total nth ∧
      (∀ text : String, getArrayFromString text = .rangeError ↔ jsTrim text.data = []) := by
  have htrim := jsTrim_surround w1 t w2 hw1 hw2
  have hlen : 1 ≤ (jsTrim t.data).length := by
    have := List.length_pos.2 ht; omega
  refine ⟨?_, ?_, ?_, ?_, getArrayFromString_rangeError_iff⟩
  · unfold getArrayFromString
    rw [htrim]
  · rw [getArrayFromString_eq, if_neg (by omega)]
    rfl
  · rw [List.length_map]; exact hlen
  · unfold getRandomRanks getArrayFromString
    rw [htrim]

/-- The preceding statement at the text "a b" between a tab and a no-break space followed by a
line feed. -/
theorem getArrayFromString_outer_whitespace_witness :
    getArrayFromString ("\t" ++ "a b" ++ "\u00a0\n") = getArrayFromString "a b" ∧
      getArrayFromString "a b" = .ok ((jsTrim "a b".data).map fun char => (char.toNat : Int)) ∧
      1 ≤ ((jsTrim "a b".data).map fun char => (char.toNat : Int)).length ∧
      getRandomRanks 3 estimateSmall ("\t" ++ "a b" ++ "\u00a0\n") [7] 10 [100]
        = getRandomRanks 3 estimateSmall "a b" [7] 10 [100] ∧
      (∀ text : String, getArrayFromString text = .rangeError ↔ jsTrim text.data = []) :=
  getArrayFromString_outer_whitespace 3 estimateSmall "\t" "a b" "\u00a0\n" [7] 10 [100]
    (by decide) (by decide) (by decide)

/-! ## Collisions of the seed -/

/-- C12. `getSeedFromArray` is not collision-free: the distinct arrays `[0]` and `[2^62]`, both
non-empty, of the same length and of non-negative integers, have the same seed 1, because
`3^(2^62) mod 2^64 = 1`. -/
theorem getSeedFromArray_collision (fuel : Nat) (est : Nat → Nat) (hest : 1 ≤ est 2)
    (hfuel : 3 ≤ fuel) :
    getSeedFromArray fuel est [0] = .ok 1 ∧
      getSeedFromArray fuel est [2 ^ 62] = .ok 1 ∧
      bit64Power 3 (2 ^ 62) = .ok 1 ∧
      ∃ a b : List Int, a ≠ b ∧ a ≠ [] ∧ a.length = b.length ∧ (∀ v ∈ a, 0 ≤ v) ∧
        (∀ v ∈ b, 0 ≤ v) ∧ getSeedFromArray fuel est a = getSeedFromArray fuel est b := by
  have hp := getPrimes_eq fuel est 2 (by norm_num) hest
    (by rw [Nat.nth_prime_one_eq_three]; exact hfuel)
  rw [first_two_primes] at hp
  have h0 : getSeedFromArray fuel est [0] = .ok 1 := by
    unfold getSeedFromArray
    rw [if_neg (by decide), if_neg (by decide)]
    rw [show (([0] : List Int).length : Int) + 1 = ((2 : Nat) : Int) from rfl, hp]
    decide
  have h1 : getSeedFromArray fuel est [2 ^ 62] = .ok 1 := by
    unfold getSeedFromArray
    rw [if_neg (by decide), if_neg (by decide)]
    rw [show (([2 ^ 62] : List Int).length : Int) + 1 = ((2 : Nat) : Int) from rfl, hp]
    decide
  refine ⟨h0, h1, by decide, [0], [2 ^ 62], by decide, by decide, rfl, by decide, by decide, ?_⟩
  rw [h0, h1]

/-- The preceding statement at fuel 3 and the tabulated estimate. -/
theorem getSeedFromArray_collision_witness :
    getSeedFromArray 3 estimateSmall [0] = .ok 1 ∧
      getSeedFromArray 3 estimateSmall [2 ^ 62] = .ok 1 ∧
      bit64Power 3 (2 ^ 62) = .ok 1 ∧
      ∃ a b : List Int, a ≠ b ∧ a ≠ [] ∧ a.length = b.length ∧ (∀ v ∈ a, 0 ≤ v) ∧
        (∀ v ∈ b, 0 ≤ v) ∧
        getSeedFromArray 3 estimateSmall a = getSeedFromArray 3 estimateSmall b :=
  getSeedFromArray_collision 3 estimateSmall (by decide) (by decide)

/-! ## `getPrimes` for an arbitrary value of the estimate -/

theorem first_primes_sorted (count : Nat) :
    ((List.range count).map (Nat.nth Nat.Prime)).Pairwise (· < ·) := by
  rw [List.pairwise_map]
  exact List.Pairwise.imp (fun h => Nat.nth_strictMono Nat.infinite_setOf_prime h)
    (List.pairwise_lt_range count)

/-- C13. For every `count ≥ 2` and every value `max ≥ 1` of the estimate, the sieve over
`2..max` with early exit followed by the trial-division loop from `max + 1` upward returns
exactly the first `count` primes in ascending order. The sieve either returns early with the
primes below some bound, `count` of them, or leaves in `primes` exactly the primes up to `max`,
fewer than `count`; and the trial division accepts a later candidate, tested against the primes
below it, if and only if it is prime. -/
theorem getPrimesFrom_any_estimate (fuel max count : Nat) (hcount : 2 ≤ count)
    (hmax : 1 ≤ max) (hfuel : Nat.nth Nat.Prime (count - 1) ≤ fuel) :
    getPrimesFrom fuel max count = some ((List.range count).map (Nat.nth Nat.Prime)) ∧
      ((List.range count).map (Nat.nth Nat.Prime)).Pairwise (· < ·) ∧
      ((∃ k, sieveLoop count max (max - 1) 2 [] (fun i => decide (i < 2))
            = .inl (primesBelow k) ∧ (primesBelow k).length = count) ∨
        (sieveLoop count max (max - 1) 2 [] (fun i => decide (i < 2))
            = .inr (primesBelow (max + 1)) ∧ (primesBelow (max + 1)).length < count)) ∧
      (∀ candidate, max < candidate →
        (trialLoop candidate (primesBelow candidate) = true ↔ Nat.Prime candidate)) := by
  refine ⟨getPrimesFrom_eq fuel max count hmax (by omega) hfuel, first_primes_sorted count,
    ?_, fun candidate hc => trialLoop_primesBelow candidate (by omega)⟩
  have hsieve := sieveLoop_spec count max (max - 1) 2 (fun i => decide (i < 2)) (le_refl _)
    (by omega) (Marked_init max)
    (by rw [primesBelow_two]; exact Nat.lt_of_lt_of_le (by norm_num) hcount)
  rw [primesBelow_two] at hsieve
  exact hsieve

/-- The preceding statement at `count = 5` with the estimate 1, far below the fifth prime. -/
theorem getPrimesFrom_any_estimate_witness :
    getPrimesFrom 11 1 5 = some ((List.range 5).map (Nat.nth Nat.Prime)) ∧
      ((List.range 5).map (Nat.nth Nat.Prime)).Pairwise (· < ·) ∧
      ((∃ k, sieveLoop 5 1 (1 - 1) 2 [] (fun i => decide (i < 2))
            = .inl (primesBelow k) ∧ (primesBelow k).length = 5) ∨
        (sieveLoop 5 1 (1 - 1) 2 [] (fun i => decide (i < 2))
            = .inr (primesBelow (1 + 1)) ∧ (primesBelow (1 + 1)).length < 5)) ∧
      (∀ candidate, 1 < candidate →
        (trialLoop candidate (primesBelow candidate) = true ↔ Nat.Prime candidate)) :=
  getPrimesFrom_any_estimate 11 1 5 (by decide) (by decide) (by
    have h : Nat.count Nat.Prime 11 = 4 := by
      simp only [Nat.count_succ, Nat.count_zero]
      norm_num
    rw [show 5 - 1 = 4 from rfl, ← h, Nat.nth_count (by norm_num)])

/-! ## Termination of `getPrimes` -/

theorem fallbackLoop_stuck (number : Nat) (hnumber : 2 ≤ number) :
    ∀ fuel max : Nat, fallbackLoop number fuel [1] max = none := by
  intro fuel
  induction fuel with
  | zero => intro max; rfl
  | succ fuel ih =>
    intro max
    have hlen : ([1] : List Nat).length < number := by simp; omega
    have htrial : trialLoop (max + 1) [1] = false := by
      simp [trialLoop, Nat.mod_one]
    simp only [fallbackLoop, hlen, if_true, htrial, Bool.false_eq_true, if_false]
    exact ih (max + 1)

theorem getPrimesFrom_zero_diverges (number : Nat) (hnumber : 2 ≤ number) (fuel : Nat) :
    getPrimesFrom fuel 0 number = none := by
  unfold getPrimesFrom
  simp only [Nat.zero_sub, sieveLoop]
  cases fuel with
  | zero => rfl
  | succ fuel =>
    have hlen : ([] : List Nat).length < number := by simp; omega
    simp only [fallbackLoop, hlen, if_true, trialLoop, List.nil_append]
    exact fallbackLoop_stuck number hnumber fuel 1

theorem getPrimesFrom_zero_one (fuel : Nat) (hfuel : 2 ≤ fuel) :
    getPrimesFrom fuel 0 1 = some [1] := by
  obtain ⟨f, rfl⟩ : ∃ f, fuel = f + 2 := ⟨fuel - 2, by omega⟩
  rfl

theorem getPrimesFrom_length (fuel max number : Nat) (hnumber : 1 ≤ number)
    (hmax : 2 ≤ number → 1 ≤ max) (hfuel : Nat.nth Nat.Prime (number - 1) ≤ fuel) :
    ∃ primes, getPrimesFrom fuel max number = some primes ∧ primes.length = number := by
  by_cases hm : 1 ≤ max
  · exact ⟨_, getPrimesFrom_eq fuel max number hm hnumber hfuel, by simp⟩
  · have hn1 : number = 1 := by
      by_contra hne
      exact hm (hmax (by omega))
    have hm0 : max = 0 := by omega
    subst hn1 hm0
    rw [show 1 - 1 = 0 from rfl, Nat.nth_prime_zero_eq_two] at hfuel
    exact ⟨[1], getPrimesFrom_zero_one fuel hfuel, rfl⟩

/-- C14. `getPrimes` terminates for every integer `count`, whatever value the estimate of
line 75 takes (it is 0 at `count = 1` and at least 2 from `count = 2` on; the statement only
uses that it is at least 1 from 2 on): the sieve loop is given `max - 1` iterations, the
fallback loop reaches the prime of rank `count` after finitely many increments, for which a
fuel equal to that prime is enough, and the result is a list of length exactly
`max(count, 0)`. -/
theorem getPrimes_terminates (fuel : Nat) (est : Nat → Nat) (count : Int)
    (hest : 2 ≤ count → 1 ≤ est count.toNat)
    (hfuel : 1 ≤ count → Nat.nth Nat.Prime (count.toNat - 1) ≤ fuel) :
    (∃ primes, getPrimes fuel est count = .ok primes ∧ (primes.length : Int) = max count 0) ∧
      (1 ≤ count → ∃ primes,
        getPrimesFrom fuel (est count.toNat) count.toNat = some primes ∧
          primes.length = count.toNat) := by
  have hfrom : 1 ≤ count → ∃ primes,
      getPrimesFrom fuel (est count.toNat) count.toNat = some primes ∧
        primes.length = count.toNat := by
    intro hc
    exact getPrimesFrom_length fuel (est count.toNat) count.toNat (by omega)
      (fun h => hest (by omega)) (hfuel hc)
  refine ⟨?_, hfrom⟩
  unfold getPrimes
  by_cases hc : count ≤ 0
  · rw [if_pos hc]
    exact ⟨[], rfl, by simp; omega⟩
  · rw [if_neg hc]
    obtain ⟨primes, hp, hlen⟩ := hfrom (by omega)
    rw [hp]
    exact ⟨primes, rfl, by rw [hlen]; omega⟩

/-- The preceding statement at `count = 1`, where the estimate is 0, with fuel 2. -/
theorem getPrimes_terminates_witness :
    (∃ primes, getPrimes 2 estimateSmall 1 = .ok primes ∧
        (primes.length : Int) = max 1 0) ∧
      ((1 : Int) ≤ 1 → ∃ primes,
        getPrimesFrom 2 (estimateSmall (1 : Int).toNat) (1 : Int).toNat = some primes ∧
          primes.length = (1 : Int).toNat) :=
  getPrimes_terminates 2 estimateSmall 1 (by decide)
    (fun _ => by
      rw [show (1 : Int).toNat - 1 = 0 from rfl, Nat.nth_prime_zero_eq_two])

/-- The hypothesis on the estimate cannot be dropped from the preceding statement: were the
estimate 0 at `count = 2` (line 75 gives 2 there), the sieve loop would not run, the fallback
loop would accept the candidate 1 and from then on reject every candidate, since 1 divides it,
and no amount of fuel would make the loop return. -/
theorem getPrimes_zero_estimate_diverges :
    (¬ ∃ fuel primes, getPrimesFrom fuel 0 2 = some primes) ∧
      (¬ ∃ fuel primes, getPrimes fuel (fun _ => 0) 2 = .ok primes) ∧
      getPrimesFrom 1000 0 2 = none := by
  have hnone : ∀ fuel, getPrimesFrom fuel 0 2 = none :=
    getPrimesFrom_zero_diverges 2 (le_refl 2)
  refine ⟨?_, ?_, hnone 1000⟩
  · rintro ⟨fuel, primes, h⟩
    rw [hnone fuel] at h
    exact Option.noConfusion h
  · rintro ⟨fuel, primes, h⟩
    unfold getPrimes at h
    rw [if_neg (by decide)] at h
    rw [show ((2 : Int).toNat) = 2 from rfl, hnone fuel] at h
    exact Outcome.noConfusion h

/-! ## The generator round is injective -/

theorem xor_shiftLeft_injective (a : Nat) (ha : 1 ≤ a) (x y : Nat)
    (h : x ^^^ ((x <<< a) % 2 ^ 64) = y ^^^ ((y <<< a) % 2 ^ 64)) : x = y := by
  apply Nat.eq_of_testBit_eq
  intro i
  induction i using Nat.strong_induction_on with
  | _ i ih =>
    have hbit := congrArg (fun n => Nat.testBit n i) h
    simp only [Nat.testBit_xor, Nat.testBit_mod_two_pow, Nat.testBit_shiftLeft] at hbit
    by_cases hai : a ≤ i
    · have hprev := ih (i - a) (by omega)
      rw [hprev] at hbit
      generalize (decide (i < 64) && (decide (i ≥ a) && Nat.testBit y (i - a))) = c at hbit
      revert hbit
      cases Nat.testBit x i <;> cases Nat.testBit y i <;> cases c <;> simp
    · have hfalse : decide (i ≥ a) = false := by simpa using hai
      simpa [hfalse] using hbit

theorem xor_shiftRight_injective (a : Nat) (ha : 1 ≤ a) (x y : Nat) (hx : x < 2 ^ 64)
    (hy : y < 2 ^ 64) (h : x ^^^ (x >>> a) = y ^^^ (y >>> a)) : x = y := by
  have hall : ∀ n i, 64 ≤ i + n → Nat.testBit x i = Nat.testBit y i := by
    intro n
    induction n with
    | zero =>
      intro i hi
      have hpow : (2 : Nat) ^ 64 ≤ 2 ^ i := Nat.pow_le_pow_right (by norm_num) (by omega)
      rw [Nat.testBit_lt_two_pow (lt_of_lt_of_le hx hpow),
        Nat.testBit_lt_two_pow (lt_of_lt_of_le hy hpow)]
    | succ n ih =>
      intro i hi
      have hbit := congrArg (fun m => Nat.testBit m i) h
      simp only [Nat.testBit_xor, Nat.testBit_shiftRight] at hbit
      have hnext := ih (a + i) (by omega)
      rw [hnext] at hbit
      revert hbit
      cases Nat.testBit x i <;> cases Nat.testBit y i <;> cases Nat.testBit y (a + i) <;>
        simp
  exact Nat.eq_of_testBit_eq fun i => hall 64 i (by omega)

theorem nextRandomInt64_eq_iff (s t : Int) :
    nextRandomInt64 s = nextRandomInt64 t ↔ mask64 s = mask64 t := by
  constructor
  · intro h
    rw [nextRandomInt64_unfold, nextRandomInt64_unfold] at h
    have hs0 := mask64_lt s
    have ht0 := mask64_lt t
    have hs1 : mask64 s ^^^ ((mask64 s <<< 32) % 2 ^ 64) < 2 ^ 64 :=
      Nat.xor_lt_two_pow hs0 (Nat.mod_lt _ (by norm_num))
    have ht1 : mask64 t ^^^ ((mask64 t <<< 32) % 2 ^ 64) < 2 ^ 64 :=
      Nat.xor_lt_two_pow ht0 (Nat.mod_lt _ (by norm_num))
    have h2 := xor_shiftLeft_injective 1 (le_refl 1) _ _ h
    have h1 := xor_shiftRight_injective 13 (by norm_num) _ _ hs1 ht1 h2
    exact xor_shiftLeft_injective 32 (by norm_num) _ _ h1
  · intro h
    rw [nextRandomInt64_unfold, nextRandomInt64_unfold, h]

theorem nextRandomInt64_injOn (s t : Nat) (hs : s < 2 ^ 64) (ht : t < 2 ^ 64)
    (h : nextRandomInt64 (s : Int) = nextRandomInt64 (t : Int)) : s = t := by
  have hm := (nextRandomInt64_eq_iff s t).1 h
  rw [mask64_natCast, mask64_natCast, Nat.mod_eq_of_lt hs, Nat.mod_eq_of_lt ht] at hm
  exact hm

theorem nextRandomInt64_surjOn (y : Nat) (hy : y < 2 ^ 64) :
    ∃ s : Nat, s < 2 ^ 64 ∧ nextRandomInt64 (s : Int) = y := by
  let f : Fin (2 ^ 64) → Fin (2 ^ 64) :=
    fun s => ⟨nextRandomInt64 ((s : Nat) : Int), nextRandomInt64_lt _⟩
  have hinj : Function.Injective f := by
    intro s t hst
    have hval := congrArg Fin.val hst
    exact Fin.ext (nextRandomInt64_injOn s t s.isLt t.isLt hval)
  obtain ⟨s, hs⟩ := (Finite.injective_iff_surjective.1 hinj) ⟨y, hy⟩
  exact ⟨s, s.isLt, congrArg Fin.val hs⟩

/-- C16. `nextRandomInt64` is a bijection on the 64-bit values: for `s`, `t` in `[0, 2^64)`,
equal results force `s = t` (each of the three xor-shift stages is injective), distinct seeds
have distinct successors, and every 64-bit value is the successor of a 64-bit seed. -/
theorem nextRandomInt64_bijective (s t : Nat) (hs : s < 2 ^ 64) (ht : t < 2 ^ 64) :
    (nextRandomInt64 (s : Int) = nextRandomInt64 (t : Int) → s = t) ∧
      (s ≠ t → nextRandomInt64 (s : Int) ≠ nextRandomInt64 (t : Int)) ∧
      (∀ y : Nat, y < 2 ^ 64 → ∃ r : Nat, r < 2 ^ 64 ∧ nextRandomInt64 (r : Int) = y) :=
  ⟨nextRandomInt64_injOn s t hs ht, fun hne h => hne (nextRandomInt64_injOn s t hs ht h),
    nextRandomInt64_surjOn⟩

/-- The preceding statement at the seeds 1 and 2. -/
theorem nextRandomInt64_bijective_witness :
    (nextRandomInt64 ((1 : Nat) : Int) = nextRandomInt64 ((2 : Nat) : Int) → 1 = 2) ∧
      (1 ≠ 2 → nextRandomInt64 ((1 : Nat) : Int) ≠ nextRandomInt64 ((2 : Nat) : Int)) ∧
      (∀ y : Nat, y < 2 ^ 64 → ∃ r : Nat, r < 2 ^ 64 ∧ nextRandomInt64 (r : Int) = y) :=
  nextRandomInt64_bijective 1 2 (by decide) (by decide)

/-! ## The stream of a draw never reaches zero -/

theorem odd_nth_prime_succ (i : Nat) : Odd (Nat.nth Nat.Prime (i + 1)) := by
  apply (Nat.prime_nth_prime (i + 1)).odd_of_ne_two
  have hlt : Nat.nth Nat.Prime 0 < Nat.nth Nat.Prime (i + 1) :=
    Nat.nth_strictMono Nat.infinite_setOf_prime (Nat.succ_pos i)
  rw [Nat.nth_prime_zero_eq_two] at hlt
  omega

theorem odd_seed_product (array : List Int) :
    Odd (∏ i in Finset.range array.length,
      Nat.nth Nat.Prime (i + 1) ^ (array.getD i 0).toNat) :=
  Finset.prod_induction _ Odd (fun _ _ ha hb => ha.mul hb) odd_one
    (fun i _ => (odd_nth_prime_succ i).pow)

theorem getSeedFromArray_odd (fuel : Nat) (est : Nat → Nat) (array : List Int)
    (hne : array ≠ []) (hnonneg : ∀ v ∈ array, 0 ≤ v) (hest : 1 ≤ est (array.length + 1))
    (hfuel : Nat.nth Nat.Prime array.length ≤ fuel) :
    ∃ seed, getSeedFromArray fuel est array = .ok seed ∧ seed % 2 = 1 ∧ seed < 2 ^ 64 := by
  refine ⟨_, getSeedFromArray_eq fuel est array hne hnonneg hest hfuel, ?_,
    Nat.mod_lt _ (by norm_num)⟩
  have hodd := Nat.odd_iff.1 (odd_seed_product array)
  rw [Nat.mod_mod_of_dvd _ (Dvd.intro (2 ^ 63) (by norm_num))]
  exact hodd

theorem nextRandomInt64_eq_zero_iff (s : Int) : nextRandomInt64 s = 0 ↔ s % 2 ^ 64 = 0 := by
  have h0 : nextRandomInt64 0 = 0 := by decide
  rw [← h0, nextRandomInt64_eq_iff, mask64_eq, mask64_eq]
  have hs := Int.emod_nonneg s (by norm_num : (2 : Int) ^ 64 ≠ 0)
  constructor
  · intro h
    have h1 : ((0 : Int) % 2 ^ 64).toNat = 0 := by decide
    rw [h1] at h
    omega
  · intro h
    rw [h]
    rfl

theorem seedAfter_ne_zero (k seed : Nat) (hseed : seed ≠ 0) (hlt : seed < 2 ^ 64) :
    seedAfter k seed ≠ 0 := by
  induction k with
  | zero => exact hseed
  | succ k ih =>
    rw [seedAfter_succ]
    intro h
    have hz := (nextRandomInt64_eq_zero_iff _).1 h
    have hb := seedAfter_lt k seed hlt
    omega

/-- C15. The stream of a draw never reaches the all-zero state: for a non-empty array of
non-negative integers the seed returned by `getSeedFromArray` is odd, hence non-zero, and every
iterate of `nextRandomInt64` on it is non-zero; `nextRandomInt64(s)` is 0 only when `s` is 0
modulo `2^64`. -/
theorem seed_stream_nonzero (fuel : Nat) (est : Nat → Nat) (array : List Int)
    (hne : array ≠ []) (hnonneg : ∀ v ∈ array, 0 ≤ v) (hest : 1 ≤ est (array.length + 1))
    (hfuel : Nat.nth Nat.Prime array.length ≤ fuel) :
    ∃ seed, getSeedFromArray fuel est array = .ok seed ∧ seed % 2 = 1 ∧ seed ≠ 0 ∧
      (∀ k, seedAfter k seed ≠ 0) ∧
      (∀ s : Int, nextRandomInt64 s = 0 ↔ s % 2 ^ 64 = 0) := by
  obtain ⟨seed, hseed, hodd, hlt⟩ := getSeedFromArray_odd fuel est array hne hnonneg hest hfuel
  have hnz : seed ≠ 0 := by omega
  exact ⟨seed, hseed, hodd, hnz, fun k => seedAfter_ne_zero k seed hnz hlt,
    nextRandomInt64_eq_zero_iff⟩

/-- The preceding statement at the array `[64, 0]`, fuel 5 and the tabulated estimate. -/
theorem seed_stream_nonzero_witness :
    ∃ seed, getSeedFromArray 5 estimateSmall [64, 0] = .ok seed ∧ seed % 2 = 1 ∧ seed ≠ 0 ∧
      (∀ k, seedAfter k seed ≠ 0) ∧
      (∀ s : Int, nextRandomInt64 s = 0 ↔ s % 2 ^ 64 = 0) :=
  seed_stream_nonzero 5 estimateSmall [64, 0] (by simp) (by simp) (by decide)
    (by rw [show ([64, 0] : List Int).length = 2 from rfl, nth_prime_two_eq_five])

/-! ## Incrementing one parameter -/

theorem getD_set_succ (array : List Int) (i j : Nat) (hi : i < array.length) :
    (array.set i (array.getD i 0 + 1)).getD j 0 =
      if j = i then array.getD i 0 + 1 else array.getD j 0 := by
  rw [List.getD_eq_getElem?_getD, List.getElem?_set]
  by_cases hji : j = i
  · subst hji
    rw [if_pos rfl, if_pos hi, if_pos rfl]
    rfl
  · rw [if_neg (fun h => hji h.symm), if_neg hji, List.getD_eq_getElem?_getD]

theorem seed_product_set_succ (array : List Int) (i : Nat) (hi : i < array.length)
    (hnonneg : ∀ v ∈ array, 0 ≤ v) :
    (∏ j in Finset.range (array.set i (array.getD i 0 + 1)).length,
        Nat.nth Nat.Prime (j + 1) ^ ((array.set i (array.getD i 0 + 1)).getD j 0).toNat)
      = (∏ j in Finset.range array.length,
          Nat.nth Nat.Prime (j + 1) ^ (array.getD j 0).toNat) * Nat.nth Nat.Prime (i + 1) := by
  have hget : array.getD i 0 = array[i] := by
    rw [List.getD_eq_getElem?_getD, List.getElem?_eq_getElem hi]; rfl
  have hval : 0 ≤ array.getD i 0 := by
    rw [hget]; exact hnonneg _ (List.getElem_mem hi)
  rw [List.length_set]
  have hfactor : ∀ j ∈ Finset.range array.length,
      Nat.nth Nat.Prime (j + 1) ^ ((array.set i (array.getD i 0 + 1)).getD j 0).toNat
        = Nat.nth Nat.Prime (j + 1) ^ (array.getD j 0).toNat
          * (if j = i then Nat.nth Nat.Prime (j + 1) else 1) := by
    intro j _
    rw [getD_set_succ array i j hi]
    by_cases hji : j = i
    · subst hji
      rw [if_pos rfl, if_pos rfl, Int.toNat_add hval (by norm_num)]
      exact pow_succ _ _
    · rw [if_neg hji, if_neg hji, mul_one]
  rw [Finset.prod_congr rfl hfactor, Finset.prod_mul_distrib, Finset.prod_ite_eq',
    if_pos (Finset.mem_range.2 hi)]

/-- C17. Changing one parameter by one changes the seed: for a non-empty array of non-negative
integers and a position `i` whose prime base, the prime of index `i + 1` in the ascending
sequence of all primes, is below `2^64`, the array with `array[i] + 1` in place of `array[i]`
has a seed different from the seed of the array; the new seed is the old one times the base,
modulo `2^64`. -/
theorem getSeedFromArray_increment (fuel : Nat) (est : Nat → Nat) (array : List Int) (i : Nat)
    (hi : i < array.length) (hnonneg : ∀ v ∈ array, 0 ≤ v)
    (hbase : Nat.nth Nat.Prime (i + 1) < 2 ^ 64) (hest : 1 ≤ est (array.length + 1))
    (hfuel : Nat.nth Nat.Prime array.length ≤ fuel) :
    getSeedFromArray fuel est (array.set i (array.getD i 0 + 1))
        ≠ getSeedFromArray fuel est array ∧
      ∃ seed, getSeedFromArray fuel est array = .ok seed ∧
        getSeedFromArray fuel est (array.set i (array.getD i 0 + 1))
          = .ok (seed * Nat.nth Nat.Prime (i + 1) % 2 ^ 64) := by
  have hne : array ≠ [] := by
    intro h; rw [h] at hi; exact Nat.not_lt_zero _ hi
  have hne2 : array.set i (array.getD i 0 + 1) ≠ [] := by
    intro h
    have := congrArg List.length h
    rw [List.length_set, List.length_nil] at this
    omega
  have hget : array.getD i 0 = array[i] := by
    rw [List.getD_eq_getElem?_getD, List.getElem?_eq_getElem hi]; rfl
  have hnonneg2 : ∀ v ∈ array.set i (array.getD i 0 + 1), 0 ≤ v := by
    intro v hv
    rcases List.mem_or_eq_of_mem_set hv with h | h
    · exact hnonneg v h
    · rw [h, hget]
      have := hnonneg _ (List.getElem_mem hi)
      omega
  have hold := getSeedFromArray_eq fuel est array hne hnonneg hest hfuel
  have hnew := getSeedFromArray_eq fuel est _ hne2 hnonneg2
    (by rw [List.length_set]; exact hest) (by rw [List.length_set]; exact hfuel)
  rw [seed_product_set_succ array i hi hnonneg] at hnew
  have hodd := odd_seed_product array
  generalize (∏ j in Finset.range array.length,
    Nat.nth Nat.Prime (j + 1) ^ (array.getD j 0).toNat) = P at hold hnew hodd
  have hq3 : 3 ≤ Nat.nth Nat.Prime (i + 1) := by
    have hlt : Nat.nth Nat.Prime 0 < Nat.nth Nat.Prime (i + 1) :=
      Nat.nth_strictMono Nat.infinite_setOf_prime (Nat.succ_pos i)
    rw [Nat.nth_prime_zero_eq_two] at hlt
    omega
  generalize Nat.nth Nat.Prime (i + 1) = q at hbase hnew hq3
  constructor
  · rw [hold, hnew]
    intro h
    have hmod : P * q % 2 ^ 64 = P % 2 ^ 64 := by
      injection h
    have hcop : Nat.gcd (2 ^ 64) P = 1 :=
      Nat.Coprime.pow_left 64 (Nat.coprime_two_left.2 hodd)
    have hmodeq : Nat.ModEq (2 ^ 64) (P * q) (P * 1) := by
      rw [mul_one]; exact hmod
    have hq := Nat.ModEq.cancel_left_of_coprime hcop hmodeq
    unfold Nat.ModEq at hq
    rw [Nat.mod_eq_of_lt hbase] at hq
    have h1 : (1 : Nat) % 2 ^ 64 = 1 := by norm_num
    omega
  · refine ⟨_, hold, ?_⟩
    rw [hnew]
    congr 1
    exact (Nat.mod_modEq P (2 ^ 64)).symm.mul_right q

/-- The preceding statement at the array `[1, 2]` and the position 1. -/
theorem getSeedFromArray_increment_witness :
    getSeedFromArray 5 estimateSmall
          (([1, 2] : List Int).set 1 (([1, 2] : List Int).getD 1 0 + 1))
        ≠ getSeedFromArray 5 estimateSmall [1, 2] ∧
      ∃ seed, getSeedFromArray 5 estimateSmall [1, 2] = .ok seed ∧
        getSeedFromArray 5 estimateSmall
            (([1, 2] : List Int).set 1 (([1, 2] : List Int).getD 1 0 + 1))
          = .ok (seed * Nat.nth Nat.Prime (1 + 1) % 2 ^ 64) :=
  getSeedFromArray_increment 5 estimateSmall [1, 2] 1 (by decide) (by simp)
    (by rw [nth_prime_two_eq_five]; norm_num) (by decide)
    (by rw [show ([1, 2] : List Int).length = 2 from rfl, nth_prime_two_eq_five])

/-! ## The boundary between parameters and text -/

theorem getRandomRanks_of_array (fuel : Nat) (est : Nat → Nat) (text text' : String)
    (params params' : List Int) (total : Int) (nth : List Int)
    (ht : jsTrim text.data ≠ []) (ht' : jsTrim text'.data ≠ [])
    (harray : params ++ textCodes text = params' ++ textCodes text') :
    getRandomRanks fuel est text params total nth
      = getRandomRanks fuel est text' params' total nth := by
  have hlen : ¬ (jsTrim text.data).length < 1 := by
    have := List.length_pos.2 ht; omega
  have hlen' : ¬ (jsTrim text'.data).length < 1 := by
    have := List.length_pos.2 ht'; omega
  rw [getRandomRanks_eq, getRandomRanks_eq, if_neg hlen, if_neg hlen', harray]

theorem textCodes_cons (c : Char) (t : String) (hc : isWhiteSpace c = false)
    (ht : jsTrim t.data ≠ []) (hlead : t.data.dropWhile isWhiteSpace = t.data) :
    textCodes (String.singleton c ++ t) = (c.toNat : Int) :: textCodes t := by
  unfold textCodes
  have hdata : (String.singleton c ++ t).data = c :: t.data := by
    rw [String.data_append]; rfl
  rw [hdata, jsTrim_cons c t.data hc ht hlead, List.map_cons]

/-- C18. A draw depends on `(params, text)` only through the array
`params ++ codePoints(trim(text))`, so the boundary between the parameters and the text is not
encoded: for a character `c` that is not whitespace and a text `t` with a non-empty trimmed form
and no leading whitespace, `getRandomRanks` has the same result on the text `c ++ t` with
`params` as on the text `t` with `params ++ [codePoint(c)]`, for all `params`, `total` and
`nth`. -/
theorem getRandomRanks_boundary (fuel : Nat) (est : Nat → Nat) (c : Char) (t : String)
    (params : List Int) (total : Int) (nth : List Int) (hc : isWhiteSpace c = false)
    (ht : jsTrim t.data ≠ []) (hlead : t.data.dropWhile isWhiteSpace = t.data) :
    getRandomRanks fuel est (String.singleton c ++ t) params total nth
        = getRandomRanks fuel est t (params ++ [(c.toNat : Int)]) total nth ∧
      params ++ textCodes (String.singleton c ++ t)
        = (params ++ [(c.toNat : Int)]) ++ textCodes t ∧
      (∀ (text text' : String) (args args' : List Int), jsTrim text.data ≠ [] →
        jsTrim text'.data ≠ [] → args ++ textCodes text = args' ++ textCodes text' →
        getRandomRanks fuel est text args total nth
          = getRandomRanks fuel est text' args' total nth) := by
  have hcodes := textCodes_cons c t hc ht hlead
  have harray : params ++ textCodes (String.singleton c ++ t)
      = (params ++ [(c.toNat : Int)]) ++ textCodes t := by
    rw [hcodes, List.append_assoc]; rfl
  have hne : jsTrim (String.singleton c ++ t).data ≠ [] := by
    intro h
    have hnil : textCodes (String.singleton c ++ t) = [] := by
      unfold textCodes; rw [h]; rfl
    rw [hcodes] at hnil
    exact List.noConfusion hnil
  exact ⟨getRandomRanks_of_array fuel est _ _ _ _ total nth hne ht harray, harray,
    fun text text' args args' h h' ha =>
      getRandomRanks_of_array fuel est text text' args args' total nth h h' ha⟩

/-- The preceding statement at the character 'a' and the text "b": the text "ab" without
parameters and the text "b" with the parameter 97 give the same ranks. -/
theorem getRandomRanks_boundary_witness :
    getRandomRanks 5 estimateSmall (String.singleton 'a' ++ "b") [] 10 [100]
        = getRandomRanks 5 estimateSmall "b" ([] ++ [(('a' : Char).toNat : Int)]) 10 [100] ∧
      [] ++ textCodes (String.singleton 'a' ++ "b")
        = ([] ++ [(('a' : Char).toNat : Int)]) ++ textCodes "b" ∧
      (∀ (text text' : String) (args args' : List Int), jsTrim text.data ≠ [] →
        jsTrim text'.data ≠ [] → args ++ textCodes text = args' ++ textCodes text' →
        getRandomRanks 5 estimateSmall text args 10 [100]
          = getRandomRanks 5 estimateSmall text' args' 10 [100]) :=
  getRandomRanks_boundary 5 estimateSmall 'a' "b" [] 10 [100] (by decide) (by decide)
    (by decide)

end FairDraw
